import Mathlib

/-!
# librsync `buf.c`: file buffers with hole-making output

A shallow embedding of `src/buf.c` and a verification of the claims made about it.

* Bytes are natural numbers; a byte string is a `List Nat`.
* A stdio stream (`FILE *`) is the record `FILE`: contents, position indicator, the
  end-of-file and error indicators, a plan of injected faults and a trace of the calls made.
  The stream calls follow ISO C / POSIX: a seek past the end does not extend the file, a write
  past the end fills the gap with zero bytes, `fread` returns a byte count and never `-1`.
* Pointers into the scratch buffer are `Option Int`: `none` is `NULL`, `some k` is `fb->buf + k`.
* A failed `assert` aborts the program: the function returns `none`.
* Counts (`int seek`, `int count`, `size_t buf_len`) are natural numbers and file offsets
  (`off_t`) are integers.  Where the source stores a `size_t` count or a pointer difference in
  an `int` (`len` at line 128, `present` at line 251, `result` at line 257, `got` at line 309)
  the value goes through `toInt32`, and where it stores an `int` back into a `size_t`
  (`avail_in` at line 147, `*len` at line 317) through `toSize`.
-/

namespace Librsync

/-! ## The stream model -/

/-- One call on a stream, as recorded in the trace of the stream. -/
inductive IoOp where
  /-- A seek to absolute offset `target`; `ok` tells whether it succeeded. -/
  | seek (target : Int) (ok : Bool)
  /-- A truncate to `len` bytes; `ok` tells whether it succeeded. -/
  | truncate (len : Int) (ok : Bool)
  /-- A write at offset `off` that transferred `bytes`, out of `want` requested. -/
  | write (off : Nat) (want : Nat) (bytes : List Nat)
  /-- A read at offset `off` that asked for `want` bytes and obtained `got`. -/
  | read (off : Nat) (want : Nat) (got : Nat)
  deriving DecidableEq, Repr

/-- True for a trace entry that is a physical write. -/
def IoOp.isWrite : IoOp → Bool
  | .write _ _ _ => true
  | _ => false

/-- True for a trace entry that is a truncate. -/
def IoOp.isTruncate : IoOp → Bool
  | .truncate _ _ => true
  | _ => false

/-- True for a trace entry that is a read. -/
def IoOp.isRead : IoOp → Bool
  | .read _ _ _ => true
  | _ => false

/-- A stdio stream on a regular file.  `faults` is the plan of the outcomes of the coming
fallible calls (`fseeko`, `ftruncate`, `fwrite`, `fread`), one entry per call: `none` (or an
exhausted plan) lets the call succeed, `some k` makes it fail after transferring at most `k`
bytes.  `log` is the trace of the calls made so far. -/
structure FILE where
  data : List Nat
  pos : Nat
  eof : Bool
  err : Bool
  faults : List (Option Nat)
  log : List IoOp
  deriving DecidableEq, Repr

/-- The `whence` argument of `fseeko`. -/
inductive Whence where
  | SEEK_SET
  | SEEK_CUR
  | SEEK_END
  deriving DecidableEq, Repr

/-- C `ftello(f)`: the position indicator. -/
def ftello (f : FILE) : Int := (f.pos : Int)

/-- C `feof(f)`: the end-of-file indicator. -/
def feof (f : FILE) : Bool := f.eof

/-- C `ferror(f)`: the error indicator. -/
def ferror (f : FILE) : Bool := f.err

/-- The absolute offset that `fseeko(f, offset, whence)` asks for. -/
def seek_target (f : FILE) (offset : Int) (whence : Whence) : Int :=
  match whence with
  | .SEEK_SET => offset
  | .SEEK_CUR => (f.pos : Int) + offset
  | .SEEK_END => (f.data.length : Int) + offset

/-- C `fseeko(f, offset, whence)`: returns `0` and moves the position indicator (clearing the
end-of-file indicator), or returns `-1` and leaves the stream alone when the call faults or
the target offset is negative. -/
def fseeko (f : FILE) (offset : Int) (whence : Whence) : Int × FILE :=
  let target := seek_target f offset whence
  match f.faults with
  | some _ :: rest =>
    (-1, { f with faults := rest, log := f.log ++ [IoOp.seek target false] })
  | _ =>
    if target < 0 then
      (-1, { f with faults := f.faults.tail, log := f.log ++ [IoOp.seek target false] })
    else
      (0, { f with pos := target.toNat, eof := false, faults := f.faults.tail,
                   log := f.log ++ [IoOp.seek target true] })

/-- The source has `#define fseek fseeko`. -/
def fseek (f : FILE) (offset : Int) (whence : Whence) : Int × FILE := fseeko f offset whence

/-- POSIX `ftruncate(fileno(f), length)`: cuts the file at `length`, or extends it with zero
bytes; the position indicator does not move. -/
def ftruncate (f : FILE) (length : Int) : Int × FILE :=
  match f.faults with
  | some _ :: rest =>
    (-1, { f with faults := rest, log := f.log ++ [IoOp.truncate length false] })
  | _ =>
    if length < 0 then
      (-1, { f with faults := f.faults.tail, log := f.log ++ [IoOp.truncate length false] })
    else
      (0, { f with data := f.data.take length.toNat
                            ++ List.replicate (length.toNat - f.data.length) 0,
                   faults := f.faults.tail, log := f.log ++ [IoOp.truncate length true] })

/-- The file contents after `bytes` are stored at offset `off`: a gap between the old end
and `off` is filled with zero bytes, bytes past the stored range are kept. -/
def store (data : List Nat) (off : Nat) (bytes : List Nat) : List Nat :=
  data.take off ++ List.replicate (off - data.length) 0 ++ bytes
    ++ data.drop (off + bytes.length)

/-- C `fwrite(ptr, 1, n, f)` where `src` are the bytes found at `ptr`: transfers the first `n`
bytes of `src` to the file at the position indicator and returns the number transferred.  A
faulted call transfers fewer than `n` bytes and sets the error indicator. -/
def fwrite (src : List Nat) (n : Nat) (f : FILE) : Nat × FILE :=
  if n = 0 then (0, f) else
  match f.faults with
  | some k :: rest =>
    let bytes := src.take (min k (n - 1))
    (bytes.length,
      { f with data := if bytes.length = 0 then f.data else store f.data f.pos bytes,
               pos := f.pos + bytes.length, err := true, faults := rest,
               log := f.log ++ [IoOp.write f.pos n bytes] })
  | _ =>
    let bytes := src.take n
    (bytes.length,
      { f with data := store f.data f.pos bytes, pos := f.pos + bytes.length,
               faults := f.faults.tail, log := f.log ++ [IoOp.write f.pos n bytes] })

/-- C `fread(ptr, 1, n, f)`: returns the bytes transferred (their number is the return value of
the C call).  A read that meets the end of the file before `n` bytes sets the end-of-file
indicator; a faulted call transfers fewer than `n` bytes and sets the error indicator. -/
def fread (n : Nat) (f : FILE) : List Nat × FILE :=
  if n = 0 then ([], f) else
  let avail := (f.data.drop f.pos).take n
  match f.faults with
  | some k :: rest =>
    let bytes := avail.take (min k (n - 1))
    (bytes, { f with pos := f.pos + bytes.length, err := true, faults := rest,
                     log := f.log ++ [IoOp.read f.pos n bytes.length] })
  | _ =>
    (avail, { f with pos := f.pos + avail.length,
                     eof := f.eof || decide (avail.length < n),
                     faults := f.faults.tail,
                     log := f.log ++ [IoOp.read f.pos n avail.length] })

/-- Memory after `bytes` have been stored at the start of the area `mem`. -/
def poke (mem : List Nat) (bytes : List Nat) : List Nat :=
  bytes ++ mem.drop bytes.length

/-! ## The types of `buf.c` -/

/-- Modelled from the spec: the result codes of `librsync.h` that `buf.c` returns (normal
completion, I/O failure, unexpected end of input). -/
inductive rs_result where
  | RS_DONE
  | RS_IO_ERROR
  | RS_INPUT_ENDED
  deriving DecidableEq, Repr

/-- Modelled from the spec: the stream cursors of `librsync.h` (`rs_buffers_t`), a pointer and
an available length for each direction and the end-of-input flag. -/
structure rs_buffers_t where
  next_in : Option Int
  avail_in : Nat
  eof_in : Bool
  next_out : Option Int
  avail_out : Nat
  deriving DecidableEq, Repr

/-- C `struct rs_filebuf`: the stream, the scratch buffer and its capacity. -/
structure rs_filebuf_t where
  f : FILE
  buf : List Nat
  buf_len : Nat
  deriving DecidableEq, Repr

/-- The byte at `*pc` for `pc = fb->buf + i`. -/
def deref (buf : List Nat) (i : Nat) : Nat := buf.getD i 0

/-! ## `try_making_a_hole` -/

/-- C `try_making_a_hole(f, hole_size, zero_buffer)`, lines 154-192.  `size` receives the
return value of `fseeko(f, 0, SEEK_END)`, as in the source. -/
def try_making_a_hole (f : FILE) (hole_size : Nat) (zero_buffer : List Nat) : Nat × FILE :=
  let cur := ftello f
  let s1 := fseeko f 0 .SEEK_END
  let size : Int := s1.1
  let s2 := fseeko s1.2 cur .SEEK_SET
  if cur > size then
    let s3 := fseeko s2.2 (hole_size : Int) .SEEK_CUR
    (if s3.1 = 0 then hole_size else 0, s3.2)
  else if cur + (hole_size : Int) > size then
    let t := ftruncate s2.2 cur
    if t.1 = 0 then
      let s3 := fseeko t.2 (hole_size : Int) .SEEK_CUR
      (if s3.1 = 0 then hole_size else 0, s3.2)
    else (0, t.2)
  else
    fwrite zero_buffer hole_size s2.2

/-! ## `write_with_holes` -/

/-- A run found by the scan: where it starts in the buffer, its length, whether it is a run of
zero bytes, and how many of its bytes the file reported as committed. -/
structure Run where
  isZero : Bool
  offset : Nat
  length : Nat
  committed : Nat
  deriving DecidableEq, Repr

/-- The loop `while((0 == *pc) && (present > 0)) { pc++; present--; seek++; }`, lines 203-207;
returns `(pc, present, seek)`. -/
def scan_zero (buf : List Nat) : (present pc seek : Nat) → Nat × Nat × Nat
  | 0, pc, seek => (pc, 0, seek)
  | present + 1, pc, seek =>
    if deref buf pc = 0 then scan_zero buf present (pc + 1) (seek + 1)
    else (pc, present + 1, seek)

/-- The loop `while((*pc) && (present > 0)) { count++; pc++; present--; }`, lines 213-217;
returns `(pc, present, count)`. -/
def scan_nonzero (buf : List Nat) : (present pc count : Nat) → Nat × Nat × Nat
  | 0, pc, count => (pc, 0, count)
  | present + 1, pc, count =>
    if deref buf pc ≠ 0 then scan_nonzero buf present (pc + 1) (count + 1)
    else (pc, present + 1, count)

/-- The state of the outer loop of `write_with_holes`, with the runs issued so far. -/
structure HoleState where
  pc : Nat
  present : Nat
  ret : Nat
  f : FILE
  runs : List Run
  deriving DecidableEq, Repr

/-- One pass through the body of `while(present > 0)`, lines 201-220. -/
def hole_body (buf : List Nat) (s : HoleState) : HoleState :=
  let z := scan_zero buf s.present s.pc 0
  let seek := z.2.2
  let h : Nat × FILE :=
    if seek > 0 then try_making_a_hole s.f seek (buf.drop s.pc) else (0, s.f)
  let runs1 := if seek > 0 then s.runs ++ [Run.mk true s.pc seek h.1] else s.runs
  let c := scan_nonzero buf z.2.1 z.1 0
  let count := c.2.2
  let w : Nat × FILE :=
    if count > 0 then fwrite (buf.drop z.1) count h.2 else (0, h.2)
  let runs2 := if count > 0 then runs1 ++ [Run.mk false z.1 count w.1] else runs1
  { pc := c.1, present := c.2.1, ret := s.ret + h.1 + w.1, f := w.2, runs := runs2 }

/-- The loop `while(present > 0)` of `write_with_holes`; every pass consumes at least one
byte, so `fuel = present` passes always suffice (`hole_loop_runs`). -/
def hole_loop (buf : List Nat) : (fuel : Nat) → HoleState → HoleState
  | 0, s => s
  | fuel + 1, s => if s.present > 0 then hole_loop buf fuel (hole_body buf s) else s

/-- C `write_with_holes(fb, present, f)`, lines 194-223: the final loop state, whose `ret` is
the value returned, `f` the stream afterwards and `runs` the runs issued. -/
def write_with_holes (fb : rs_filebuf_t) (present : Nat) (f : FILE) : HoleState :=
  hole_loop fb.buf present { pc := 0, present := present, ret := 0, f := f, runs := [] }

/-! ## `rs_infilebuf_fill` and `rs_outfilebuf_drain` -/

/-- The value an `int` (32 bits, two's complement) holds after `x` is stored in it. -/
def toInt32 (x : Int) : Int := (x + 2147483648) % 4294967296 - 2147483648

/-- The value a `size_t` (64 bits, unsigned) holds after `x` is stored in it. -/
def toSize (x : Int) : Nat := (x % 18446744073709551616).toNat

/-- C `rs_infilebuf_fill(job, buf, opaque)`, lines 100-151. -/
def rs_infilebuf_fill (fb : rs_filebuf_t) (buf : rs_buffers_t) :
    Option (rs_result × rs_filebuf_t × rs_buffers_t) :=
  let asserts : Bool :=
    match buf.next_in with
    | some p => decide (buf.avail_in ≤ fb.buf_len) && decide (p ≥ 0)
                  && decide (p ≤ (fb.buf_len : Int))
    | none => decide (buf.avail_in = 0)
  if ¬ asserts then none
  else if buf.eof_in || feof fb.f then
    some (.RS_DONE, fb, { buf with eof_in := true })
  else if buf.avail_in ≠ 0 then
    some (.RS_DONE, fb, { buf with eof_in := feof fb.f })
  else
    let r := fread fb.buf_len fb.f
    let len : Int := toInt32 (r.1.length : Int)
    let fb1 : rs_filebuf_t := { fb with f := r.2, buf := poke fb.buf r.1 }
    let buf1 : rs_buffers_t := { buf with eof_in := feof fb.f }
    if len ≤ 0 then
      if feof r.2 then some (.RS_DONE, fb1, { buf1 with eof_in := true })
      else if ferror r.2 then some (.RS_IO_ERROR, fb1, buf1)
      else some (.RS_IO_ERROR, fb1, buf1)
    else
      some (.RS_DONE, fb1, { buf1 with avail_in := toSize len, next_in := some 0 })

/-- C `rs_outfilebuf_drain(job, buf, opaque)`, lines 230-269. -/
def rs_outfilebuf_drain (fb : rs_filebuf_t) (buf : rs_buffers_t) :
    Option (rs_result × rs_filebuf_t × rs_buffers_t) :=
  match buf.next_out with
  | none =>
    if buf.avail_out ≠ 0 then none
    else some (.RS_DONE, fb, { buf with next_out := some 0, avail_out := fb.buf_len })
  | some p =>
    if ¬ (buf.avail_out ≤ fb.buf_len ∧ p ≥ 0 ∧ p ≤ (fb.buf_len : Int)) then none
    else
      let present : Int := toInt32 p
      if present > 0 then
        let r := write_with_holes fb present.toNat fb.f
        let result : Int := toInt32 (r.ret : Int)
        if present ≠ result then
          some (.RS_IO_ERROR, { fb with f := r.f }, buf)
        else
          some (.RS_DONE, { fb with f := r.f },
                { buf with next_out := some 0, avail_out := fb.buf_len })
      else some (.RS_DONE, fb, buf)

/-! ## `rs_file_seek` and `rs_file_copy_cb` -/

/-- C `rs_file_seek(f, pos)`, lines 273-293. -/
def rs_file_seek (f : FILE) (pos : Int) : Int × FILE :=
  let cur := ftello f
  let s1 := fseek f 0 .SEEK_END
  if s1.1 ≠ 0 then (-1, s1.2)
  else
    let end_ := ftello s1.2
    if end_ < cur ∧ pos < cur then
      let s2 := fseeko s1.2 (cur - 1) .SEEK_SET
      if s2.1 ≠ 0 then (-1, s2.2)
      else
        let w := fwrite [0] 1 s2.2
        if 1 ≠ w.1 then (-1, w.2)
        else fseek w.2 pos .SEEK_SET
    else fseek s1.2 pos .SEEK_SET

/-- C `rs_file_copy_cb(arg, pos, len, buf)`, lines 299-320; `len` and `buf` are the values of
`*len` and of the area `*buf` points to, returned updated. -/
def rs_file_copy_cb (f : FILE) (pos : Int) (len : Nat) (buf : List Nat) :
    rs_result × FILE × Nat × List Nat :=
  let s := rs_file_seek f pos
  if s.1 ≠ 0 then (.RS_IO_ERROR, s.2, len, buf)
  else
    let r := fread len s.2
    let got : Int := toInt32 (r.1.length : Int)
    if got = -1 then (.RS_IO_ERROR, r.2, len, poke buf r.1)
    else if got = 0 then (.RS_INPUT_ENDED, r.2, len, poke buf r.1)
    else (.RS_DONE, r.2, toSize got, poke buf r.1)

/-! ## Auxiliary notions and the inputs of the examples -/

/-- A stream freshly opened on a file with contents `data`. -/
def fopen (data : List Nat) : FILE :=
  { data := data, pos := 0, eof := false, err := false, faults := [], log := [] }

/-- The contents of the file as far as the cursor: the bytes on disk, followed by zero bytes
for a hole that the cursor has been moved over and that is not on disk yet. -/
def logical (f : FILE) : List Nat :=
  f.data ++ List.replicate (f.pos - f.data.length) 0

/-- Reading `n` bytes back at absolute offset `p`: a seek to `p` and a read. -/
def read_back (f : FILE) (p n : Nat) : List Nat :=
  (fread n (fseeko f (p : Int) .SEEK_SET).2).1

/-- The scenario of the specification: the ten bytes `0 0 0 A B 0 0 C D 0` in a scratch
buffer of capacity 10, to be written to an empty file. -/
def holes_example : rs_filebuf_t :=
  { f := fopen [], buf := [0, 0, 0, 65, 66, 0, 0, 67, 68, 0], buf_len := 10 }

/-- The consumer of the claim about sequential fill: the engine takes everything the input
cursor offers, advancing the pointer by the available length. -/
def consume_all (b : rs_buffers_t) : rs_buffers_t :=
  { b with next_in := b.next_in.map (fun p => p + (b.avail_in : Int)), avail_in := 0 }

/-- What a fill delivered: the input cursor it left and the bytes that cursor points at. -/
structure Chunk where
  next_in : Option Int
  avail_in : Nat
  bytes : List Nat
  deriving DecidableEq, Repr

/-- The bytes the input cursor of `b` points at in the scratch buffer of `fb`. -/
def offered (fb : rs_filebuf_t) (b : rs_buffers_t) : List Nat :=
  match b.next_in with
  | some p => (fb.buf.drop p.toNat).take b.avail_in
  | none => []

/-- The driver of the claim about sequential fill: call `rs_infilebuf_fill`, let the consumer
take everything, and repeat until a call reports the end of the input; the result is the list
of deliveries and the final state.  It gives `none` when a call aborts or fails, or when the
fuel runs out before the end of the input is reported. -/
def fill_all : Nat → rs_filebuf_t → rs_buffers_t →
    Option (List Chunk × rs_filebuf_t × rs_buffers_t)
  | 0, _, _ => none
  | fuel + 1, fb, b =>
    match rs_infilebuf_fill fb b with
    | some (rs_result.RS_DONE, fb1, b1) =>
      if b1.eof_in then some ([], fb1, b1)
      else
        match fill_all fuel fb1 (consume_all b1) with
        | some (cs, fb2, b2) =>
          some ({ next_in := b1.next_in, avail_in := b1.avail_in, bytes := offered fb1 b1 } :: cs,
                fb2, b2)
        | none => none
    | _ => none

/-- The concatenation, in order, of the bytes of a list of deliveries. -/
def delivered : List Chunk → List Nat
  | [] => []
  | c :: cs => c.bytes ++ delivered cs

/-- The scenario of the specification for the fill: capacity 16 and a file holding exactly the
sixteen bytes `A` to `P`. -/
def fill_example : rs_filebuf_t :=
  { f := fopen [65, 66, 67, 68, 69, 70, 71, 72, 73, 74, 75, 76, 77, 78, 79, 80],
    buf := List.replicate 16 0, buf_len := 16 }

/-- The stream of the safe-seek scenario: 90 bytes on disk, cursor at 100. -/
def dangling_example : FILE := { fopen (List.replicate 90 7) with pos := 100 }

/-- A stream on the four bytes `1 2 3 4` with the cursor at offset 1. -/
def inside_example : FILE := { fopen [1, 2, 3, 4] with pos := 1 }

/-- A stream on the three bytes `1 2 3` with the cursor at offset 1. -/
def straddle_example : FILE := { fopen [1, 2, 3] with pos := 1 }

/-- A stream on the three bytes `1 2 3` with the cursor at offset 5, past the extent. -/
def past_example : FILE := { fopen [1, 2, 3] with pos := 5 }

/-- A stream on the four bytes `1 2 3 4` whose third fallible call (the read that follows the
two seeks of `rs_file_seek`) fails with an I/O error before any byte is transferred. -/
def read_error_example : FILE := { fopen [1, 2, 3, 4] with faults := [none, none, some 0] }

/-- Cursors as the engine hands them over before the first call: null pointers, nothing
available, end of input not seen. -/
def null_cursors : rs_buffers_t :=
  { next_in := none, avail_in := 0, eof_in := false, next_out := none, avail_out := 0 }

/-- A scratch buffer of capacity 16 on a freshly opened empty file. -/
def empty_input_example : rs_filebuf_t :=
  { f := fopen [], buf := List.replicate 16 0, buf_len := 16 }

/-- A scratch buffer of capacity 4 holding `0 0 7 7`, on an empty file whose fifth fallible
call (the write of the run `7 7`) fails after one byte. -/
def short_write_example : rs_filebuf_t :=
  { f := { fopen [] with faults := [none, none, none, none, some 1] },
    buf := [0, 0, 7, 7], buf_len := 4 }

/-- Output cursors after the engine has produced `n` bytes into a buffer of capacity `cap`. -/
def produced (n cap : Nat) : rs_buffers_t :=
  { next_in := none, avail_in := 0, eof_in := false, next_out := some (n : Int),
    avail_out := cap - n }

/-- The bytes requested by a list of runs. -/
def requested (runs : List Run) : Nat := (runs.map Run.length).sum

/-- The bytes the file reported as committed for a list of runs. -/
def committed (runs : List Run) : Nat := (runs.map Run.committed).sum

/-- The input cursor passes the assertions of `rs_infilebuf_fill` with nothing available. -/
def drained (N : Nat) (b : rs_buffers_t) : Prop :=
  b.eof_in = false ∧ b.avail_in = 0
    ∧ (b.next_in = none ∨ ∃ p : Int, b.next_in = some p ∧ 0 ≤ p ∧ p ≤ (N : Int))

/-- The containment that `rs_infilebuf_fill` asserts for the input cursor (lines 109-115) with
capacity `N`: null with nothing available, or within `[buf, buf + N]` with at most `N` bytes
available. -/
def in_ok (N : Nat) (b : rs_buffers_t) : Prop :=
  (b.next_in = none ∧ b.avail_in = 0)
    ∨ ∃ p : Int, b.next_in = some p ∧ 0 ≤ p ∧ p ≤ (N : Int) ∧ b.avail_in ≤ N

/-- The containment that `rs_outfilebuf_drain` asserts for the output cursor (lines 238-249)
with capacity `N`. -/
def out_ok (N : Nat) (b : rs_buffers_t) : Prop :=
  (b.next_out = none ∧ b.avail_out = 0)
    ∨ ∃ p : Int, b.next_out = some p ∧ 0 ≤ p ∧ p ≤ (N : Int) ∧ b.avail_out ≤ N

/-- Calling `rs_outfilebuf_drain` `n + 1` times in a row; the result is that of the last
call, or `none` when a call aborts. -/
def drain_repeat : Nat → rs_filebuf_t → rs_buffers_t →
    Option (rs_result × rs_filebuf_t × rs_buffers_t)
  | 0, fb, b => rs_outfilebuf_drain fb b
  | n + 1, fb, b =>
    match rs_outfilebuf_drain fb b with
    | some (_, fb1, b1) => drain_repeat n fb1 b1
    | none => none

/-- Output cursors right after a drain: pointer at the buffer start, the whole capacity
available. -/
def idle_cursors (cap : Nat) : rs_buffers_t :=
  { next_in := none, avail_in := 0, eof_in := false, next_out := some 0, avail_out := cap }

/-- A stream on the three bytes `1 2 3` with the cursor at offset 2. -/
def within_example : FILE := { fopen [1, 2, 3] with pos := 2 }

/-- A scratch buffer of capacity 5 holding five zero bytes, on an empty file. -/
def zeros_example : rs_filebuf_t :=
  { f := fopen [], buf := [0, 0, 0, 0, 0], buf_len := 5 }

/-- The runs, in order, tile the buffer from index `start` on: each run begins where the one
before ended, is not empty, consists of zero bytes only when it is a hole request and of
non-zero bytes only when it is a physical write, and is of the other kind than the run
before it (`prev`, when there is one). -/
def decomposes (buf : List Nat) : (start : Nat) → (prev : Option Bool) → List Run → Prop
  | _, _, [] => True
  | start, prev, r :: rs =>
    r.offset = start ∧ 0 < r.length
      ∧ (∀ i, i < r.length → (deref buf (start + i) = 0 ↔ r.isZero = true))
      ∧ prev ≠ some r.isZero
      ∧ decomposes buf (start + r.length) (some r.isZero) rs

/-- The bytes of the runs, concatenated in order. -/
def runs_bytes (buf : List Nat) : List Run → List Nat
  | [] => []
  | r :: rs => (buf.drop r.offset).take r.length ++ runs_bytes buf rs

/-- C `rs_filebuf_new(f, buf_len)`, lines 75-84: the scratch buffer is an allocation of exactly
`buf_len` bytes, whose contents are not initialised and are given here by `mem`. -/
def rs_filebuf_new (f : FILE) (buf_len : Nat) (mem : Nat → Nat) : rs_filebuf_t :=
  { f := f, buf := (List.range buf_len).map mem, buf_len := buf_len }

/-- The indices of the buffer that the loop of lines 203-207 dereferences: its condition
`(0 == *pc) && (present > 0)` evaluates `*pc` first, also when `present` is 0. -/
def scan_zero_reads (buf : List Nat) : (present pc : Nat) → List Nat
  | 0, pc => [pc]
  | present + 1, pc =>
    pc :: (if deref buf pc = 0 then scan_zero_reads buf present (pc + 1) else [])

/-- The indices of the buffer that the loop of lines 213-217 dereferences: its condition
`(*pc) && (present > 0)` evaluates `*pc` first, also when `present` is 0. -/
def scan_nonzero_reads (buf : List Nat) : (present pc : Nat) → List Nat
  | 0, pc => [pc]
  | present + 1, pc =>
    pc :: (if deref buf pc ≠ 0 then scan_nonzero_reads buf present (pc + 1) else [])

/-- The indices dereferenced by the two scans of one pass through the loop body. -/
def hole_body_reads (buf : List Nat) (s : HoleState) : List Nat :=
  let z := scan_zero buf s.present s.pc 0
  scan_zero_reads buf s.present s.pc ++ scan_nonzero_reads buf z.2.1 z.1

/-- The indices dereferenced by the scans over the whole loop `while(present > 0)`. -/
def hole_loop_reads (buf : List Nat) : (fuel : Nat) → HoleState → List Nat
  | 0, _ => []
  | fuel + 1, s =>
    if s.present > 0 then hole_body_reads buf s ++ hole_loop_reads buf fuel (hole_body buf s)
    else []

/-- The indices of the scratch buffer that the scans of `write_with_holes(fb, present, f)`
dereference through `*pc`, in order. -/
def write_with_holes_reads (fb : rs_filebuf_t) (present : Nat) (f : FILE) : List Nat :=
  hole_loop_reads fb.buf present { pc := 0, present := present, ret := 0, f := f, runs := [] }

/-- A scratch buffer of capacity 4, allocated by `rs_filebuf_new`, that holds `0 0 7 7`. -/
def full_drain_example : rs_filebuf_t :=
  rs_filebuf_new (fopen []) 4 (fun i => if i < 2 then 0 else 7)

/-- An engine step: the engine consumes `kin` bytes of input and produces `kout` bytes of
output, advancing each pointer and reducing each available length by that much. -/
def engine_step (b : rs_buffers_t) (kin kout : Nat) : rs_buffers_t :=
  { b with next_in := b.next_in.map (fun p => p + (kin : Int)),
           avail_in := b.avail_in - kin,
           next_out := b.next_out.map (fun p => p + (kout : Int)),
           avail_out := b.avail_out - kout }

/-- The states reached from null cursors, with an input buffer of capacity `Nin` and an
output buffer of capacity `Nout`, by calls of `rs_infilebuf_fill` on the input buffer and of
`rs_outfilebuf_drain` on the output buffer that return, interleaved with engine steps that
advance a cursor by at most its available length (and may rewrite the output buffer). -/
inductive Reach (Nin Nout : Nat) : rs_filebuf_t → rs_filebuf_t → rs_buffers_t → Prop where
  | start (fi fo : FILE) (mi mo : List Nat) :
      Reach Nin Nout ⟨fi, mi, Nin⟩ ⟨fo, mo, Nout⟩ null_cursors
  | fill {fbi fbo : rs_filebuf_t} {b : rs_buffers_t} (r : rs_result) (fbi1 : rs_filebuf_t)
      (b1 : rs_buffers_t) :
      Reach Nin Nout fbi fbo b → rs_infilebuf_fill fbi b = some (r, fbi1, b1) →
      Reach Nin Nout fbi1 fbo b1
  | drain {fbi fbo : rs_filebuf_t} {b : rs_buffers_t} (r : rs_result) (fbo1 : rs_filebuf_t)
      (b1 : rs_buffers_t) :
      Reach Nin Nout fbi fbo b → rs_outfilebuf_drain fbo b = some (r, fbo1, b1) →
      Reach Nin Nout fbi fbo1 b1
  | engine {fbi fbo : rs_filebuf_t} {b : rs_buffers_t} (kin kout : Nat) (mem : List Nat) :
      Reach Nin Nout fbi fbo b → kin ≤ b.avail_in → kout ≤ b.avail_out →
      Reach Nin Nout fbi { fbo with buf := mem } (engine_step b kin kout)

/-- The input cursor reaches, with its available bytes, no further than the end of a buffer
of capacity `N` (or is null with nothing available). -/
def in_tight (N : Nat) (b : rs_buffers_t) : Prop :=
  (b.next_in = none ∧ b.avail_in = 0)
    ∨ ∃ p : Int, b.next_in = some p ∧ 0 ≤ p ∧ p + (b.avail_in : Int) ≤ (N : Int)

/-- The output cursor reaches, with its available space, no further than the end of a buffer
of capacity `N` (or is null with nothing available). -/
def out_tight (N : Nat) (b : rs_buffers_t) : Prop :=
  (b.next_out = none ∧ b.avail_out = 0)
    ∨ ∃ p : Int, b.next_out = some p ∧ 0 ≤ p ∧ p + (b.avail_out : Int) ≤ (N : Int)

/-- The input buffer of the fill scenario after the first fill: the sixteen bytes are in the
buffer and the stream stands at offset 16. -/
def filled_example : rs_filebuf_t :=
  { f := { fopen [65, 66, 67, 68, 69, 70, 71, 72, 73, 74, 75, 76, 77, 78, 79, 80] with
             pos := 16, log := [IoOp.read 0 16 16] },
    buf := [65, 66, 67, 68, 69, 70, 71, 72, 73, 74, 75, 76, 77, 78, 79, 80], buf_len := 16 }

/-- The cursors of the fill scenario after the first fill: sixteen bytes at the buffer
start. -/
def filled_cursors : rs_buffers_t :=
  { next_in := some 0, avail_in := 16, eof_in := false, next_out := none, avail_out := 0 }

/-- An output buffer of capacity `2^31` on an empty file. -/
def huge_out_example : rs_filebuf_t :=
  rs_filebuf_new (fopen []) 2147483648 (fun _ => 7)

/-- Output cursors after the engine has produced `2^31` bytes into a buffer of that
capacity. -/
def huge_out_cursors : rs_buffers_t := produced 2147483648 2147483648

/-- An input buffer of capacity `2^31` on a freshly opened file of `2^31` bytes. -/
def huge_in_example : rs_filebuf_t :=
  rs_filebuf_new (fopen (List.replicate 2147483648 7)) 2147483648 (fun _ => 0)

/-- A freshly opened file of `2^31` bytes. -/
def huge_file_example : FILE := fopen (List.replicate 2147483648 7)

/-- A stream on the three bytes `1 2 3` with the cursor at offset 5, whose second fallible
call (the seek back to the cursor after the extent probe) fails. -/
def restore_fault_example : FILE :=
  { fopen [1, 2, 3] with pos := 5, faults := [none, some 0, none] }

/-- Input cursors in the middle of a delivery: four bytes still available at offset 12 of a
buffer of capacity 16. -/
def midway_cursors : rs_buffers_t :=
  { next_in := some 12, avail_in := 4, eof_in := false, next_out := none, avail_out := 0 }

/-- A scratch buffer of capacity 4 on the file `1 2 3 4` whose first fallible call (the read)
fails with an I/O error before any byte is transferred. -/
def fill_error_example : rs_filebuf_t :=
  { f := { fopen [1, 2, 3, 4] with faults := [some 0] }, buf := [9, 9, 9, 9], buf_len := 4 }

/-! ## Facts about the integer conversions -/

/-- A value in the range of `int` is stored unchanged. -/
theorem toInt32_of_lt (x : Int) (h0 : 0 ≤ x) (h : x < 2147483648) : toInt32 x = x := by
  unfold toInt32
  omega

/-- A positive `int` obtained from a count is at most that count. -/
theorem toInt32_le (x : Int) (h0 : 0 ≤ x) (h : 0 < toInt32 x) : toInt32 x ≤ x := by
  unfold toInt32 at h ⊢
  omega

/-- An `int` is below `2^31`. -/
theorem toInt32_lt (x : Int) : toInt32 x < 2147483648 := by
  unfold toInt32
  omega

/-- Zero is stored unchanged in an `int`. -/
theorem toInt32_zero : toInt32 0 = 0 := by
  unfold toInt32
  omega

/-- A count below `2^31` is stored unchanged in an `int`. -/
theorem toInt32_natCast (n : Nat) (h : n < 2147483648) : toInt32 (n : Int) = (n : Int) :=
  toInt32_of_lt _ (by omega) (by omega)

/-- A count below `2^31` survives the way through an `int` into a `size_t`. -/
theorem toSize_natCast (n : Nat) (h : n < 2147483648) : toSize (n : Int) = n := by
  unfold toSize
  omega

/-- A non-negative `int` is stored unchanged in a `size_t`. -/
theorem toSize_of_nonneg (x : Int) (h0 : 0 ≤ x) (h : x < 2147483648) :
    toSize x = x.toNat := by
  unfold toSize
  congr 1
  omega

/-! ## Facts about the stream calls -/

/-- A seek that returns `0` had a non-negative target and moved the cursor there, touching
nothing but the cursor, the end-of-file indicator, the plan and the trace. -/
theorem fseeko_ok (f : FILE) (o : Int) (w : Whence) (h : (fseeko f o w).1 = 0) :
    0 ≤ seek_target f o w ∧
    (fseeko f o w).2 = { f with pos := (seek_target f o w).toNat, eof := false,
                                faults := f.faults.tail,
                                log := f.log ++ [IoOp.seek (seek_target f o w) true] } := by
  unfold fseeko at h ⊢
  rcases hf : f.faults with _ | ⟨_ | k, rest⟩ <;> rw [hf] at h <;> simp only [] at h ⊢
  · by_cases ht : seek_target f o w < 0
    · simp [ht] at h
    · simp [ht]; omega
  · by_cases ht : seek_target f o w < 0
    · simp [ht] at h
    · simp [ht]; omega
  · simp at h

/-- A write that reports all `n` bytes stored them at the cursor and advanced it by `n`. -/
theorem fwrite_full (src : List Nat) (n : Nat) (f : FILE) (hn : 0 < n)
    (h : (fwrite src n f).1 = n) :
    (fwrite src n f).2 = { f with data := store f.data f.pos (src.take n), pos := f.pos + n,
                                  faults := f.faults.tail,
                                  log := f.log ++ [IoOp.write f.pos n (src.take n)] } := by
  have hn0 : n ≠ 0 := by omega
  unfold fwrite at h ⊢
  rcases hf : f.faults with _ | ⟨_ | k, rest⟩ <;> rw [hf] at h <;>
    simp only [hn0, if_false, List.tail] at h ⊢
  · rw [h]
  · rw [h]
  · simp only [List.length_take] at h
    omega

/-- C3. Safe seek pins a dangling hole: when the cursor `cur` lies beyond the extent `end` and
the target is below `cur`, a successful `rs_file_seek` performs exactly the calls seek-to-end,
seek to `cur - 1`, write of the single byte zero at `cur - 1`, seek to `pos`; afterwards the
contents are the old contents followed by `cur - end` zero bytes (so the extent is `cur`, the
bytes below `end` are unchanged and the bytes in `[end, cur)` are zero) and the cursor is
`pos`. -/
theorem rs_file_seek_pins_hole (f : FILE) (pos : Int)
    (hcur : f.data.length < f.pos) (hpos : pos < (f.pos : Int))
    (hok : (rs_file_seek f pos).1 = 0) :
    (rs_file_seek f pos).2.log
        = f.log ++ [IoOp.seek f.data.length true, IoOp.seek ((f.pos : Int) - 1) true,
                    IoOp.write (f.pos - 1) 1 [0], IoOp.seek pos true]
      ∧ (rs_file_seek f pos).2.data = f.data ++ List.replicate (f.pos - f.data.length) 0
      ∧ (rs_file_seek f pos).2.data.length = f.pos
      ∧ ((rs_file_seek f pos).2.pos : Int) = pos := by
  unfold rs_file_seek at hok ⊢
  simp only [fseek, ftello] at hok ⊢
  by_cases h1 : (fseeko f 0 .SEEK_END).1 = 0
  · obtain ⟨-, e1⟩ := fseeko_ok f 0 .SEEK_END h1
    simp only [seek_target, add_zero, Int.toNat_ofNat] at e1
    have hlt : ((fseeko f 0 .SEEK_END).2.pos : Int) < (f.pos : Int) ∧ pos < (f.pos : Int) := by
      rw [e1]; simp only; omega
    simp only [h1, ne_eq, not_true_eq_false, if_false, hlt, and_self, if_true] at hok ⊢
    by_cases h2 : (fseeko (fseeko f 0 .SEEK_END).2 ((f.pos : Int) - 1) .SEEK_SET).1 = 0
    · obtain ⟨-, e2⟩ := fseeko_ok _ _ _ h2
      simp only [seek_target] at e2
      simp only [h2, not_true_eq_false, if_false] at hok ⊢
      by_cases h3 : (fwrite [0] 1
          (fseeko (fseeko f 0 .SEEK_END).2 ((f.pos : Int) - 1) .SEEK_SET).2).1 = 1
      · have e3 := fwrite_full _ _ _ (by decide) h3
        simp only [h3, not_true_eq_false, if_false] at hok ⊢
        obtain ⟨h4, e4⟩ := fseeko_ok _ _ _ hok
        simp only [seek_target] at e4 h4
        have hp : ((f.pos : Int) - 1).toNat = f.pos - 1 := by omega
        have hdata : (fseeko (fwrite [0] 1 (fseeko (fseeko f 0 .SEEK_END).2
            ((f.pos : Int) - 1) .SEEK_SET).2).2 pos .SEEK_SET).2.data
            = f.data ++ List.replicate (f.pos - f.data.length) 0 := by
          rw [e4, e3, e2, e1]
          simp only [hp, store]
          rw [List.take_of_length_le (by omega), List.drop_of_length_le (by simp; omega)]
          have : f.pos - f.data.length = (f.pos - 1 - f.data.length) + 1 := by omega
          rw [this, List.replicate_add]
          simp
        refine ⟨?_, hdata, ?_, ?_⟩
        · rw [e4, e3, e2, e1]
          simp [hp]
        · rw [hdata]
          simp only [List.length_append, List.length_replicate]
          omega
        · rw [e4]
          simp only
          omega
      · exfalso
        have : (1 : Nat) ≠ (fwrite [0] 1
          (fseeko (fseeko f 0 .SEEK_END).2 ((f.pos : Int) - 1) .SEEK_SET).2).1 := fun h => h3 h.symm
        simp [this] at hok
    · simp [h2] at hok
  · simp [h1] at hok

/-- C3 at the scenario of the specification: cursor 100, extent 90, target 10. -/
theorem rs_file_seek_pins_hole_witness :
    (rs_file_seek dangling_example 10).1 = 0
      ∧ (rs_file_seek dangling_example 10).2.log
          = [IoOp.seek 90 true, IoOp.seek 99 true, IoOp.write 99 1 [0], IoOp.seek 10 true]
      ∧ (rs_file_seek dangling_example 10).2.data.length = 100
      ∧ ((rs_file_seek dangling_example 10).2.pos : Int) = 10 :=
  have h := rs_file_seek_pins_hole dangling_example 10 (by decide) (by decide) (by decide)
  ⟨by decide, h.1, h.2.2.1, h.2.2.2⟩

/-- C5 (the code at a failing input). A run of two zero bytes requested at cursor 1 of the
four-byte file `1 2 3 4` lies inside the extent, yet `try_making_a_hole` only seeks: it
writes nothing, reports 2 bytes committed, and the bytes at offsets 1 and 2 stay `2 3`. -/
theorem try_making_a_hole_inside_extent_only_seeks :
    try_making_a_hole inside_example 2 [0, 0]
      = (2, { data := [1, 2, 3, 4], pos := 3, eof := false, err := false, faults := [],
              log := [IoOp.seek 4 true, IoOp.seek 1 true, IoOp.seek 3 true] }) := by
  decide

/-- C6 (the code at a failing input). A run of five zero bytes requested at cursor 1 of the
three-byte file `1 2 3` straddles the extent, yet `try_making_a_hole` does not truncate:
the extent stays 3 and the old bytes `2 3` at offsets 1 and 2 are kept. -/
theorem try_making_a_hole_straddle_keeps_tail :
    try_making_a_hole straddle_example 5 [0, 0, 0, 0, 0]
      = (5, { data := [1, 2, 3], pos := 6, eof := false, err := false, faults := [],
              log := [IoOp.seek 3 true, IoOp.seek 1 true, IoOp.seek 6 true] }) := by
  decide

/-- A zero run of length `L > 0` requested with the cursor beyond the extent only
seeks, whatever faults the stream meets: the contents (hence the extent) are unchanged, no
call made is a write or a truncate, the value returned is `L` when the advancing seek (the
third fallible call) succeeds and `0` when it fails, and, the two seeks of the extent probe
having succeeded, the cursor ends at `cur + L` when the advancing seek succeeds. -/
theorem try_making_a_hole_past_extent (f : FILE) (L : Nat) (zb : List Nat)
    (hL : 0 < L) (hcur : f.data.length < f.pos) :
    (try_making_a_hole f L zb).2.data = f.data
      ∧ (∃ ops, (try_making_a_hole f L zb).2.log = f.log ++ ops
            ∧ ∀ op ∈ ops, op.isWrite = false ∧ op.isTruncate = false)
      ∧ (try_making_a_hole f L zb).1 = (if (f.faults.getD 2 none).isSome then 0 else L)
      ∧ (f.faults.getD 0 none = none → f.faults.getD 1 none = none →
          (try_making_a_hole f L zb).2.pos
            = if (f.faults.getD 2 none).isSome then f.pos else f.pos + L) := by
  obtain ⟨data, pos, eof, err, faults, log⟩ := f
  simp only at hcur
  have h0 : ¬ ((pos : Int) < 0) := by omega
  have h1 : ¬ ((data.length : Int) < 0) := by omega
  have h2 : ¬ ((pos : Int) + (L : Int) < 0) := by omega
  have h3 : ¬ ((data.length : Int) + (L : Int) < 0) := by omega
  have h4 : (0 : Int) < (pos : Int) := by omega
  have h5 : ((pos : Int) + (L : Int)).toNat = pos + L := by omega
  have h6 : (-1 : Int) < (pos : Int) := by omega
  rcases faults with _ | ⟨_ | a, _ | ⟨_ | b, _ | ⟨_ | c, rest⟩⟩⟩ <;>
    simp [try_making_a_hole, fseeko, seek_target, ftello, h0, h1, h2, h3, h4, h5, h6,
      IoOp.isWrite, IoOp.isTruncate]

/-- The run past the extent at the three-byte file `1 2 3` with the cursor at 5 and a run of
4 zero bytes, no call failing. -/
theorem try_making_a_hole_past_extent_witness :
    (try_making_a_hole past_example 4 []).2.data = [1, 2, 3]
      ∧ (try_making_a_hole past_example 4 []).1 = 4
      ∧ (try_making_a_hole past_example 4 []).2.pos = 9 :=
  have h := try_making_a_hole_past_extent past_example 4 [] (by decide) (by decide)
  ⟨h.1, h.2.2.1, h.2.2.2 rfl rfl⟩

/-- C8, amended. Range fetch returns the bytes of the file: on a stream without faults whose
cursor is not beyond the extent `E`, for `0 ≤ pos < E` and `n > 0`, provided the number of
bytes to obtain, `min n (E - pos)`, is below `2^31` (so that it fits the `int got`),
`rs_file_copy_cb` returns `RS_DONE`, sets `*len` to `min n (E - pos)`, puts the bytes of the
file at `[pos, pos + *len)` at the start of the buffer of the caller, and leaves the
contents of the file unchanged. -/
theorem rs_file_copy_cb_fetch (f : FILE) (pos : Int) (n : Nat) (buf : List Nat)
    (hf : f.faults = []) (hcur : f.pos ≤ f.data.length)
    (hpos : 0 ≤ pos) (hposE : pos < (f.data.length : Int)) (hn : 0 < n)
    (hint : min n (f.data.length - pos.toNat) < 2147483648) :
    (rs_file_copy_cb f pos n buf).1 = rs_result.RS_DONE
      ∧ (rs_file_copy_cb f pos n buf).2.2.1 = min n (f.data.length - pos.toNat)
      ∧ (rs_file_copy_cb f pos n buf).2.2.2.take (rs_file_copy_cb f pos n buf).2.2.1
          = (f.data.drop pos.toNat).take (rs_file_copy_cb f pos n buf).2.2.1
      ∧ (rs_file_copy_cb f pos n buf).2.1.data = f.data := by
  obtain ⟨data, p, eof, err, faults, log⟩ := f
  simp only at hf hcur hposE hint
  subst hf
  have h0 : ¬ ((data.length : Int) < 0) := by omega
  have h1 : ¬ ((data.length : Int) < (p : Int)) := by omega
  have h2 : ¬ (pos < 0) := by omega
  have hn0 : n ≠ 0 := by omega
  have hlen : ((data.drop pos.toNat).take n).length = min n (data.length - pos.toNat) := by
    simp
  have hpos' : 0 < min n (data.length - pos.toNat) := by
    have : pos.toNat < data.length := by omega
    omega
  simp only [rs_file_copy_cb, rs_file_seek, fseek, fseeko, seek_target, ftello, fread, poke,
    h0, h1, h2, hn0, add_zero, zero_add, if_false, if_true, List.tail, ne_eq, not_true_eq_false,
    Int.toNat_ofNat, false_and, hlen, Nat.cast_inj, toInt32_natCast _ hint,
    toSize_natCast _ hint]
  have hg1 : ¬ (((min n (data.length - pos.toNat) : Nat) : Int) = -1) := by omega
  have hg2 : ¬ (((min n (data.length - pos.toNat) : Nat) : Int) = 0) := by omega
  simp only [hg1, hg2, if_false, Int.toNat_ofNat]
  refine ⟨trivial, trivial, ?_, trivial⟩
  rw [List.take_append_of_le_length (by rw [hlen])]
  rw [List.take_take]
  simp

/-- C8 at the file `1 2 3 4`: asking for 10 bytes at offset 1 gives the 3 bytes `2 3 4`. -/
theorem rs_file_copy_cb_fetch_witness :
    (rs_file_copy_cb (fopen [1, 2, 3, 4]) 1 10 (List.replicate 10 9)).1 = rs_result.RS_DONE
      ∧ (rs_file_copy_cb (fopen [1, 2, 3, 4]) 1 10 (List.replicate 10 9)).2.2.1 = 3
      ∧ (rs_file_copy_cb (fopen [1, 2, 3, 4]) 1 10 (List.replicate 10 9)).2.2.2.take 3
          = [2, 3, 4] :=
  have h := rs_file_copy_cb_fetch (fopen [1, 2, 3, 4]) 1 10 (List.replicate 10 9)
    rfl (by decide) (by decide) (by decide) (by decide) (by decide)
  ⟨h.1, h.2.1, h.2.2.1⟩

/-- C9 (the code at a failing input). The seek succeeds and the read then fails with an I/O
error before any byte is transferred (the error indicator is set, the end-of-file indicator
is not): `fread` returns 0, never `-1`, so `rs_file_copy_cb` reports `RS_INPUT_ENDED` and not
`RS_IO_ERROR`; `*len` keeps its value 4. -/
theorem rs_file_copy_cb_read_error_as_input_ended :
    (rs_file_copy_cb read_error_example 0 4 [9, 9, 9, 9]).1 = rs_result.RS_INPUT_ENDED
      ∧ ferror (rs_file_copy_cb read_error_example 0 4 [9, 9, 9, 9]).2.1 = true
      ∧ feof (rs_file_copy_cb read_error_example 0 4 [9, 9, 9, 9]).2.1 = false
      ∧ (rs_file_copy_cb read_error_example 0 4 [9, 9, 9, 9]).2.2.1 = 4 := by
  decide

/-- C10 as stated fails: on a freshly opened empty file with capacity 16 the first fill does
set `eof_in` and return `RS_DONE` with `avail_in = 0`, but it gets there by issuing a read
(the end-of-file indicator of a fresh stream is clear, so only the read can find the end). -/
theorem rs_infilebuf_fill_empty_file_reads :
    rs_infilebuf_fill empty_input_example null_cursors
      = some (rs_result.RS_DONE,
              { f := { fopen [] with eof := true, log := [IoOp.read 0 16 0] },
                buf := List.replicate 16 0, buf_len := 16 },
              { null_cursors with eof_in := true })
      ∧ ¬ (∀ r ∈ rs_infilebuf_fill empty_input_example null_cursors,
            ∀ op ∈ r.2.1.f.log, op.isRead = false) := by
  decide

/-- C10, amended. For every capacity `N > 0` and a freshly opened empty input file (no I/O
fault), the first `rs_infilebuf_fill` call (input cursor null, `avail_in = 0`, `eof_in`
clear) returns `RS_DONE` with `eof_in` set and `avail_in = 0`, the cursors being otherwise
untouched, after issuing exactly one read, which asks for `N` bytes and obtains none. -/
theorem rs_infilebuf_fill_empty_file (N : Nat) (mem : List Nat) (b : rs_buffers_t)
    (hN : 0 < N) (hnull : b.next_in = none) (havail : b.avail_in = 0)
    (heof : b.eof_in = false) :
    rs_infilebuf_fill { f := fopen [], buf := mem, buf_len := N } b
      = some (rs_result.RS_DONE,
              { f := { fopen [] with eof := true, log := [IoOp.read 0 N 0] },
                buf := mem, buf_len := N },
              { b with eof_in := true }) := by
  have hN0 : N ≠ 0 := by omega
  simp [rs_infilebuf_fill, hnull, havail, heof, fopen, feof, ferror, fread, poke, hN0, hN,
    toInt32_zero]

/-- C10 amended, at capacity 16. -/
theorem rs_infilebuf_fill_empty_file_witness :
    rs_infilebuf_fill empty_input_example null_cursors
      = some (rs_result.RS_DONE,
              { f := { fopen [] with eof := true, log := [IoOp.read 0 16 0] },
                buf := List.replicate 16 0, buf_len := 16 },
              { null_cursors with eof_in := true }) :=
  rs_infilebuf_fill_empty_file 16 (List.replicate 16 0) null_cursors (by decide) rfl rfl rfl

/-! ## The scan of `write_with_holes` -/

/-- The zero scan consumes `k` bytes, all zero, and stops at the end of the range or at a
non-zero byte. -/
theorem scan_zero_spec (buf : List Nat) : ∀ present pc seek : Nat,
    ∃ k, k ≤ present ∧ scan_zero buf present pc seek = (pc + k, present - k, seek + k)
      ∧ (∀ i, i < k → deref buf (pc + i) = 0)
      ∧ (k < present → deref buf (pc + k) ≠ 0) := by
  intro present
  induction present with
  | zero => intro pc seek; exact ⟨0, le_refl _, rfl, fun i hi => absurd hi (by omega), fun h => absurd h (by omega)⟩
  | succ n ih =>
    intro pc seek
    by_cases hz : deref buf pc = 0
    · obtain ⟨k, hk, he, hzero, hstop⟩ := ih (pc + 1) (seek + 1)
      refine ⟨k + 1, by omega, ?_, ?_, ?_⟩
      · simp only [scan_zero, hz, if_true, he]
        refine Prod.ext ?_ (Prod.ext ?_ ?_) <;> simp only <;> omega
      · intro i hi
        rcases Nat.eq_zero_or_pos i with h0 | h0
        · subst h0; simpa using hz
        · have := hzero (i - 1) (by omega)
          have e : pc + 1 + (i - 1) = pc + i := by omega
          rwa [e] at this
      · intro hlt
        have := hstop (by omega)
        have e : pc + 1 + k = pc + (k + 1) := by omega
        rwa [e] at this
    · refine ⟨0, by omega, ?_, fun i hi => absurd hi (by omega), fun _ => by simpa using hz⟩
      simp only [scan_zero, hz, if_false]
      rfl

/-- The non-zero scan consumes `k` bytes, none zero, and stops at the end of the range or
at a zero byte. -/
theorem scan_nonzero_spec (buf : List Nat) : ∀ present pc count : Nat,
    ∃ k, k ≤ present ∧ scan_nonzero buf present pc count = (pc + k, present - k, count + k)
      ∧ (∀ i, i < k → deref buf (pc + i) ≠ 0)
      ∧ (k < present → deref buf (pc + k) = 0) := by
  intro present
  induction present with
  | zero => intro pc count; exact ⟨0, le_refl _, rfl, fun i hi => absurd hi (by omega), fun h => absurd h (by omega)⟩
  | succ n ih =>
    intro pc count
    by_cases hz : deref buf pc = 0
    · refine ⟨0, by omega, ?_, fun i hi => absurd hi (by omega), fun _ => by simpa using hz⟩
      simp only [scan_nonzero, hz, ne_eq, not_true_eq_false, if_false]
      rfl
    · obtain ⟨k, hk, he, hnz, hstop⟩ := ih (pc + 1) (count + 1)
      refine ⟨k + 1, by omega, ?_, ?_, ?_⟩
      · simp only [scan_nonzero, hz, ne_eq, not_false_eq_true, if_true, he]
        refine Prod.ext ?_ (Prod.ext ?_ ?_) <;> simp only <;> omega
      · intro i hi
        rcases Nat.eq_zero_or_pos i with h0 | h0
        · subst h0; simpa using hz
        · have := hnz (i - 1) (by omega)
          have e : pc + 1 + (i - 1) = pc + i := by omega
          rwa [e] at this
      · intro hlt
        have := hstop (by omega)
        have e : pc + 1 + k = pc + (k + 1) := by omega
        rwa [e] at this

/-- One pass of the loop body: it finds a run of `k1` zero bytes followed by a run of `k2`
non-zero bytes, together at least one byte, and issues a hole request and a write for them. -/
theorem hole_body_spec (buf : List Nat) (s : HoleState) (hp : 0 < s.present) :
    ∃ k1 k2, k1 + k2 ≤ s.present ∧ 0 < k1 + k2
      ∧ (∀ i, i < k1 → deref buf (s.pc + i) = 0)
      ∧ (∀ i, i < k2 → deref buf (s.pc + k1 + i) ≠ 0)
      ∧ hole_body buf s =
          { pc := s.pc + k1 + k2, present := s.present - k1 - k2,
            ret := s.ret
              + (if k1 > 0 then try_making_a_hole s.f k1 (buf.drop s.pc) else (0, s.f)).1
              + (if k2 > 0 then fwrite (buf.drop (s.pc + k1)) k2
                    (if k1 > 0 then try_making_a_hole s.f k1 (buf.drop s.pc) else (0, s.f)).2
                 else (0, (if k1 > 0 then try_making_a_hole s.f k1 (buf.drop s.pc)
                    else (0, s.f)).2)).1,
            f := (if k2 > 0 then fwrite (buf.drop (s.pc + k1)) k2
                    (if k1 > 0 then try_making_a_hole s.f k1 (buf.drop s.pc) else (0, s.f)).2
                  else (0, (if k1 > 0 then try_making_a_hole s.f k1 (buf.drop s.pc)
                    else (0, s.f)).2)).2,
            runs := (if k2 > 0 then
                (if k1 > 0 then s.runs ++ [Run.mk true s.pc k1
                    (try_making_a_hole s.f k1 (buf.drop s.pc)).1] else s.runs)
                  ++ [Run.mk false (s.pc + k1) k2
                    (fwrite (buf.drop (s.pc + k1)) k2
                      (if k1 > 0 then try_making_a_hole s.f k1 (buf.drop s.pc)
                        else (0, s.f)).2).1]
              else (if k1 > 0 then s.runs ++ [Run.mk true s.pc k1
                    (try_making_a_hole s.f k1 (buf.drop s.pc)).1] else s.runs)) } := by
  obtain ⟨k1, hk1, e1, hz, hstop1⟩ := scan_zero_spec buf s.present s.pc 0
  obtain ⟨k2, hk2, e2, hnz, hstop2⟩ := scan_nonzero_spec buf (s.present - k1) (s.pc + k1) 0
  refine ⟨k1, k2, by omega, ?_, hz, hnz, ?_⟩
  · by_contra hcon
    have h1 : k1 = 0 := by omega
    have h2 : k2 = 0 := by omega
    subst h1 h2
    exact hstop1 hp (hstop2 (by omega))
  · unfold hole_body
    simp only [e1, e2, zero_add]
    by_cases h1 : k1 > 0 <;> by_cases h2 : k2 > 0 <;> simp [h1, h2]

/-! ## Committed counts -/

/-- A write never reports more bytes than it was asked for. -/
theorem fwrite_le (src : List Nat) (n : Nat) (f : FILE) : (fwrite src n f).1 ≤ n := by
  unfold fwrite
  by_cases hn : n = 0
  · simp [hn]
  · rcases hf : f.faults with _ | ⟨_ | k, rest⟩ <;>
      simp only [hn, if_false, List.length_take] <;> omega

/-- A hole request never reports more bytes than it was asked for. -/
theorem try_making_a_hole_le (f : FILE) (L : Nat) (zb : List Nat) :
    (try_making_a_hole f L zb).1 ≤ L := by
  unfold try_making_a_hole
  simp only
  split
  · split <;> simp
  · split
    · split
      · split <;> simp
      · simp
    · exact fwrite_le _ _ _

/-- When no run is committed beyond its length, the committed total equals the requested
total exactly when every run is committed in full. -/
theorem committed_eq_requested_iff (runs : List Run)
    (h : ∀ r ∈ runs, r.committed ≤ r.length) :
    committed runs = requested runs ↔ ∀ r ∈ runs, r.committed = r.length := by
  have hle : ∀ l : List Run, (∀ r ∈ l, r.committed ≤ r.length) → committed l ≤ requested l := by
    intro l
    induction l with
    | nil => intro _; simp [committed, requested]
    | cons a t ih =>
      intro h
      have h1 := h a (List.mem_cons_self _ _)
      have h2 := ih (fun r hr => h r (List.mem_cons_of_mem _ hr))
      simp only [committed, requested, List.map_cons, List.sum_cons] at h2 ⊢
      omega
  induction runs with
  | nil => simp [committed, requested]
  | cons a t ih =>
    have h1 := h a (List.mem_cons_self _ _)
    have ht : ∀ r ∈ t, r.committed ≤ r.length := fun r hr => h r (List.mem_cons_of_mem _ hr)
    have h2 := hle t ht
    have ih' := ih ht
    simp only [committed, requested, List.map_cons, List.sum_cons, List.mem_cons,
      forall_eq_or_imp] at h2 ih' ⊢
    constructor
    · intro he
      have ha : a.committed = a.length := by omega
      exact ⟨ha, ih'.1 (by omega)⟩
    · rintro ⟨ha, hrest⟩
      have := ih'.2 hrest
      omega

/-- The loop of `write_with_holes`, whatever faults the stream meets: with fuel for every
byte it runs until nothing is left, the runs it issues cover the range, none is committed
beyond its length, and the value returned is the sum of the committed counts. -/
theorem hole_loop_runs (buf : List Nat) : ∀ (fuel : Nat) (s : HoleState), s.present ≤ fuel →
    ∃ new, (hole_loop buf fuel s).runs = s.runs ++ new
      ∧ (hole_loop buf fuel s).present = 0
      ∧ (hole_loop buf fuel s).ret = s.ret + committed new
      ∧ requested new = s.present
      ∧ ∀ r ∈ new, r.committed ≤ r.length := by
  intro fuel
  induction fuel with
  | zero =>
    intro s hs
    exact ⟨[], by simp [hole_loop], by simp only [hole_loop]; omega,
      by simp [hole_loop, committed], by simp only [requested, List.map_nil, List.sum_nil]; omega,
      by simp⟩
  | succ n ih =>
    intro s hs
    by_cases hp : 0 < s.present
    · obtain ⟨k1, k2, hk, hpos, -, -, hb⟩ := hole_body_spec buf s hp
      have hpres : (hole_body buf s).present = s.present - k1 - k2 := by rw [hb]
      obtain ⟨new, hruns, hzero, hret, hreq, hle⟩ := ih (hole_body buf s) (by rw [hpres]; omega)
      have hstep : hole_loop buf (n + 1) s = hole_loop buf n (hole_body buf s) := by
        simp only [hole_loop, hp, gt_iff_lt, if_true]
      rw [hstep, hruns, hzero, hret, hpres] at *
      rw [hb]
      simp only
      have hh := try_making_a_hole_le s.f k1 (buf.drop s.pc)
      by_cases h1 : k1 > 0 <;> by_cases h2 : k2 > 0
      · have hw := fwrite_le (buf.drop (s.pc + k1)) k2
          (try_making_a_hole s.f k1 (buf.drop s.pc)).2
        refine ⟨[Run.mk true s.pc k1 (try_making_a_hole s.f k1 (buf.drop s.pc)).1,
          Run.mk false (s.pc + k1) k2 (fwrite (buf.drop (s.pc + k1)) k2
            (try_making_a_hole s.f k1 (buf.drop s.pc)).2).1] ++ new, ?_, trivial, ?_, ?_, ?_⟩
        · simp [h1, h2]
        · simp [h1, h2, committed]; omega
        · simp only [requested, List.map_append, List.sum_append] at hreq ⊢
          simp; omega
        · intro r hr
          simp only [List.mem_append, List.mem_cons, List.mem_singleton, List.not_mem_nil,
            or_false] at hr
          rcases hr with (rfl | rfl) | hr
          · exact hh
          · exact hw
          · exact hle r hr
      · have hk2 : k2 = 0 := by omega
        subst hk2
        refine ⟨[Run.mk true s.pc k1 (try_making_a_hole s.f k1 (buf.drop s.pc)).1] ++ new,
          ?_, trivial, ?_, ?_, ?_⟩
        · simp [h1]
        · simp [h1, committed]; omega
        · simp only [requested, List.map_append, List.sum_append] at hreq ⊢
          simp; omega
        · intro r hr
          simp only [List.mem_append, List.mem_singleton] at hr
          rcases hr with rfl | hr
          · exact hh
          · exact hle r hr
      · have hk1 : k1 = 0 := by omega
        subst hk1
        have hw := fwrite_le (buf.drop (s.pc + 0)) k2 s.f
        refine ⟨[Run.mk false (s.pc + 0) k2 (fwrite (buf.drop (s.pc + 0)) k2 s.f).1] ++ new,
          ?_, trivial, ?_, ?_, ?_⟩
        · simp [h2]
        · simp [h2, committed]; omega
        · simp only [requested, List.map_append, List.sum_append] at hreq ⊢
          simp; omega
        · intro r hr
          simp only [List.mem_append, List.mem_singleton] at hr
          rcases hr with rfl | hr
          · exact hw
          · exact hle r hr
      · omega
    · have h0 : s.present = 0 := by omega
      refine ⟨[], ?_, ?_, ?_, ?_, by simp⟩
      · simp [hole_loop, h0]
      · simp [hole_loop, h0]
      · simp [hole_loop, h0, committed]
      · simp [requested, h0]

/-- Runs of which none is committed beyond its length are committed at most in full. -/
theorem committed_le_requested (runs : List Run)
    (h : ∀ r ∈ runs, r.committed ≤ r.length) : committed runs ≤ requested runs := by
  induction runs with
  | nil => simp [committed, requested]
  | cons a t ih =>
    have h1 := h a (List.mem_cons_self _ _)
    have h2 := ih (fun r hr => h r (List.mem_cons_of_mem _ hr))
    simp only [committed, requested, List.map_cons, List.sum_cons] at h2 ⊢
    omega

/-- C2, amended. Partial writes are never accepted by drain.  For a call with a non-null output
cursor that passes the assertions and has `0 < present = next_out - buf < 2^31` (so that the
difference fits the `int present`): the runs issued by
`write_with_holes` cover exactly `present` bytes; `write_with_holes` returns `present` exactly
when every run (hole request or physical write) was committed in full; in that case the drain
returns `RS_DONE` (with the cursor reset); otherwise it returns `RS_IO_ERROR` and leaves
`next_out` and `avail_out` (all the cursors) unchanged. -/
theorem rs_outfilebuf_drain_no_partial (fb : rs_filebuf_t) (b : rs_buffers_t) (p : Int)
    (hnext : b.next_out = some p) (hp : 0 < p) (hint : p < 2147483648)
    (hpl : p ≤ (fb.buf_len : Int)) (hav : b.avail_out ≤ fb.buf_len) :
    requested (write_with_holes fb p.toNat fb.f).runs = p.toNat
      ∧ ((write_with_holes fb p.toNat fb.f).ret = p.toNat
          ↔ ∀ r ∈ (write_with_holes fb p.toNat fb.f).runs, r.committed = r.length)
      ∧ ((∀ r ∈ (write_with_holes fb p.toNat fb.f).runs, r.committed = r.length) →
          rs_outfilebuf_drain fb b
            = some (rs_result.RS_DONE, { fb with f := (write_with_holes fb p.toNat fb.f).f },
                    { b with next_out := some 0, avail_out := fb.buf_len }))
      ∧ (¬ (∀ r ∈ (write_with_holes fb p.toNat fb.f).runs, r.committed = r.length) →
          rs_outfilebuf_drain fb b
            = some (rs_result.RS_IO_ERROR,
                    { fb with f := (write_with_holes fb p.toNat fb.f).f }, b)) := by
  obtain ⟨new, hruns, -, hret, hreq, hle⟩ := hole_loop_runs fb.buf p.toNat
    { pc := 0, present := p.toNat, ret := 0, f := fb.f, runs := [] } (le_refl _)
  simp only [List.nil_append, zero_add] at hruns hret hreq
  have hruns' : (write_with_holes fb p.toNat fb.f).runs = new := hruns
  have hret' : (write_with_holes fb p.toNat fb.f).ret = committed new := hret
  have hiff := committed_eq_requested_iff new hle
  rw [hruns', hret']
  have hkey : committed new = p.toNat ↔ ∀ r ∈ new, r.committed = r.length := by
    rw [← hreq]; exact hiff
  have hasserts : (b.avail_out ≤ fb.buf_len ∧ p ≥ 0 ∧ p ≤ (fb.buf_len : Int)) :=
    ⟨hav, by omega, hpl⟩
  have hp32 : toInt32 p = p := toInt32_of_lt p (by omega) hint
  have hcle : committed new ≤ p.toNat := by
    rw [← hreq]; exact committed_le_requested new hle
  have hr32 : toInt32 ((committed new : Nat) : Int) = ((committed new : Nat) : Int) :=
    toInt32_natCast _ (by omega)
  refine ⟨hreq, hkey, ?_, ?_⟩
  · intro hall
    have hc := hkey.2 hall
    have hne : ¬ (p ≠ ((committed new : Nat) : Int)) := by rw [hc]; omega
    simp only [rs_outfilebuf_drain, hnext, hasserts, and_self, not_true_eq_false, if_false,
      hp32, hp, gt_iff_lt, if_true, hret', hr32, hne]
  · intro hall
    have hc : committed new ≠ p.toNat := fun h => hall (hkey.1 h)
    have hne : p ≠ ((committed new : Nat) : Int) := by omega
    simp only [rs_outfilebuf_drain, hnext, hasserts, and_self, not_true_eq_false, if_false,
      hp32, hp, gt_iff_lt, if_true, hret', hr32, hne, ne_eq, not_false_eq_true]

/-- C2 at a drain of `0 0 7 7` whose physical write stops after one byte: the run `7 7` is
committed short, the drain reports `RS_IO_ERROR` and the cursors are as before. -/
theorem rs_outfilebuf_drain_no_partial_witness :
    ¬ (∀ r ∈ (write_with_holes short_write_example 4 short_write_example.f).runs,
          r.committed = r.length)
      ∧ rs_outfilebuf_drain short_write_example (produced 4 4)
          = some (rs_result.RS_IO_ERROR,
                  { short_write_example with
                      f := (write_with_holes short_write_example 4 short_write_example.f).f },
                  produced 4 4) :=
  have h := rs_outfilebuf_drain_no_partial short_write_example (produced 4 4) 4 rfl
    (by decide) (by decide) (by decide) (by decide)
  ⟨by decide, h.2.2.2 (by decide)⟩

/-! ## Writing at or beyond the extent, without faults -/

/-- The logical contents reach exactly as far as the cursor. -/
theorem logical_length (f : FILE) (h : f.data.length ≤ f.pos) : (logical f).length = f.pos := by
  simp only [logical, List.length_append, List.length_replicate]
  omega

/-- A hole request at or beyond the extent, without faults: all `L` bytes are reported, the
bytes on disk are untouched and the cursor moves by `L`. -/
theorem try_making_a_hole_append (f : FILE) (L : Nat) (zb : List Nat)
    (hf : f.faults = []) (hlen : f.data.length ≤ f.pos) (hL : 0 < L) :
    (try_making_a_hole f L zb).1 = L ∧ (try_making_a_hole f L zb).2.data = f.data
      ∧ (try_making_a_hole f L zb).2.pos = f.pos + L
      ∧ (try_making_a_hole f L zb).2.faults = []
      ∧ logical (try_making_a_hole f L zb).2 = logical f ++ List.replicate L 0 := by
  have key : (try_making_a_hole f L zb).1 = L ∧ (try_making_a_hole f L zb).2.data = f.data
      ∧ (try_making_a_hole f L zb).2.pos = f.pos + L
      ∧ (try_making_a_hole f L zb).2.faults = [] := by
    obtain ⟨data, pos, eof, err, faults, log⟩ := f
    simp only at hf hlen
    subst hf
    have h0 : ¬ ((pos : Int) < 0) := by omega
    have h1 : ¬ ((data.length : Int) < 0) := by omega
    have h2 : ¬ ((pos : Int) + (L : Int) < 0) := by omega
    have h5 : ((pos : Int) + (L : Int)).toNat = pos + L := by omega
    by_cases hpos : pos = 0
    · subst hpos
      have hd : data = [] := List.eq_nil_of_length_eq_zero (by omega)
      subst hd
      have h6 : (0 : Int) < (L : Int) := by omega
      have h7 : ¬ ((L : Int) < 0) := by omega
      simp [try_making_a_hole, fseeko, seek_target, ftello, ftruncate, h6, h7]
    · have h4 : (0 : Int) < (pos : Int) := by omega
      simp [try_making_a_hole, fseeko, seek_target, ftello, h0, h1, h2, h4, h5]
  obtain ⟨a1, a2, a3, a4⟩ := key
  refine ⟨a1, a2, a3, a4, ?_⟩
  simp only [logical, a2, a3, List.append_assoc, ← List.replicate_add]
  congr 2
  omega

/-- A write at or beyond the extent, without faults: the gap up to the cursor is filled with
zero bytes and the `n` bytes follow it. -/
theorem fwrite_append (src : List Nat) (n : Nat) (f : FILE)
    (hf : f.faults = []) (hlen : f.data.length ≤ f.pos) (hn : 0 < n) (hsrc : n ≤ src.length) :
    (fwrite src n f).1 = n ∧ (fwrite src n f).2.data = logical f ++ src.take n
      ∧ (fwrite src n f).2.pos = f.pos + n
      ∧ (fwrite src n f).2.faults = []
      ∧ logical (fwrite src n f).2 = logical f ++ src.take n := by
  have key : (fwrite src n f).1 = n ∧ (fwrite src n f).2.data = logical f ++ src.take n
      ∧ (fwrite src n f).2.pos = f.pos + n
      ∧ (fwrite src n f).2.faults = [] := by
    obtain ⟨data, pos, eof, err, faults, log⟩ := f
    simp only at hf hlen
    subst hf
    have hn0 : n ≠ 0 := by omega
    have hl : (src.take n).length = n := by simp; omega
    simp only [fwrite, hn0, if_false, hl, List.tail, store, logical]
    refine ⟨trivial, ?_, trivial, trivial⟩
    rw [List.take_of_length_le hlen, List.drop_of_length_le (by omega)]
    simp
  obtain ⟨b1, b2, b3, b4⟩ := key
  refine ⟨b1, b2, b3, b4, ?_⟩
  have hl : (src.take n).length = n := by simp; omega
  have hlen2 : (fwrite src n f).2.data.length = (fwrite src n f).2.pos := by
    rw [b2, b3, List.length_append, logical_length f hlen, hl]
  have : logical (fwrite src n f).2 = (fwrite src n f).2.data := by
    simp only [logical, hlen2, Nat.sub_self, List.replicate_zero, List.append_nil]
  rw [this, b2]

/-- A stretch of the buffer whose bytes are all zero is a list of zero bytes. -/
theorem take_drop_zeros (buf : List Nat) (pc k : Nat) (hb : pc + k ≤ buf.length)
    (hz : ∀ i, i < k → deref buf (pc + i) = 0) :
    (buf.drop pc).take k = List.replicate k 0 := by
  apply List.ext_getElem
  · simp; omega
  · intro i h1 h2
    simp only [List.length_replicate] at h2
    have := hz i h2
    simp only [deref, List.getD_eq_getElem?_getD] at this
    rw [List.getElem?_eq_getElem (by omega)] at this
    simpa using this

/-- One pass of the loop body on a stream without faults whose cursor is at or beyond the
extent: the `k` bytes of the two runs are appended to the logical contents. -/
theorem hole_body_append (buf : List Nat) (s : HoleState) (hp : 0 < s.present)
    (hf : s.f.faults = []) (hlen : s.f.data.length ≤ s.f.pos)
    (hb : s.pc + s.present ≤ buf.length) :
    ∃ k, 0 < k ∧ k ≤ s.present ∧ (hole_body buf s).pc = s.pc + k
      ∧ (hole_body buf s).present = s.present - k
      ∧ (hole_body buf s).ret = s.ret + k
      ∧ (hole_body buf s).f.faults = []
      ∧ (hole_body buf s).f.pos = s.f.pos + k
      ∧ (hole_body buf s).f.data.length ≤ (hole_body buf s).f.pos
      ∧ logical (hole_body buf s).f = logical s.f ++ (buf.drop s.pc).take k := by
  obtain ⟨k1, k2, hk, hpos, hz, -, he⟩ := hole_body_spec buf s hp
  refine ⟨k1 + k2, hpos, hk, ?_⟩
  have hzeros := take_drop_zeros buf s.pc k1 (by omega) hz
  have hsplit : (buf.drop s.pc).take (k1 + k2)
      = List.replicate k1 0 ++ (buf.drop (s.pc + k1)).take k2 := by
    rw [List.take_add, hzeros, List.drop_drop]
  rw [he, hsplit]
  simp only
  by_cases h1 : k1 > 0
  · obtain ⟨a1, a2, a3, a4, a5⟩ := try_making_a_hole_append s.f k1 (buf.drop s.pc) hf hlen h1
    simp only [h1, if_true, a1]
    by_cases h2 : k2 > 0
    · obtain ⟨b1, b2, b3, b4, b5⟩ := fwrite_append (buf.drop (s.pc + k1)) k2
        (try_making_a_hole s.f k1 (buf.drop s.pc)).2 a4 (by rw [a2, a3]; omega) h2
        (by simp; omega)
      simp only [h2, if_true, b1, b3, b4, b5, a3, a5, List.append_assoc]
      refine ⟨by omega, by omega, by omega, trivial, by omega, ?_, trivial⟩
      rw [b2, List.length_append, logical_length _ (by rw [a2, a3]; omega), a3]
      simp
    · have hk2 : k2 = 0 := by omega
      subst hk2
      simp only [gt_iff_lt, lt_self_iff_false, if_false, a2, a3, a4, a5]
      refine ⟨by omega, by omega, by omega, trivial, by omega, by omega, ?_⟩
      simp
  · have hk1 : k1 = 0 := by omega
    subst hk1
    have h2 : k2 > 0 := by omega
    obtain ⟨b1, b2, b3, b4, b5⟩ := fwrite_append (buf.drop (s.pc + 0)) k2 s.f hf hlen h2
      (by simp; omega)
    simp only [gt_iff_lt, lt_self_iff_false, if_false, h2, if_true, b1, b3, b4, b5]
    refine ⟨by omega, by omega, by omega, trivial, by omega, ?_, ?_⟩
    · rw [b2, List.length_append, logical_length _ hlen]
      simp
    · simp

/-- The loop of `write_with_holes` on a stream without faults whose cursor is at or beyond
the extent: every byte is committed and the range is appended to the logical contents. -/
theorem hole_loop_append (buf : List Nat) : ∀ (fuel : Nat) (s : HoleState),
    s.present ≤ fuel → s.f.faults = [] → s.f.data.length ≤ s.f.pos →
    s.pc + s.present ≤ buf.length →
    (hole_loop buf fuel s).ret = s.ret + s.present
      ∧ (hole_loop buf fuel s).f.faults = []
      ∧ (hole_loop buf fuel s).f.pos = s.f.pos + s.present
      ∧ (hole_loop buf fuel s).f.data.length ≤ (hole_loop buf fuel s).f.pos
      ∧ logical (hole_loop buf fuel s).f = logical s.f ++ (buf.drop s.pc).take s.present := by
  intro fuel
  induction fuel with
  | zero =>
    intro s hs hf hlen _
    have h0 : s.present = 0 := by omega
    simp [hole_loop, h0, hf, hlen]
  | succ m ih =>
    intro s hs hf hlen hb
    by_cases hp : 0 < s.present
    · obtain ⟨k, hk0, hk, e1, e2, e3, e4, e5, e6, e7⟩ := hole_body_append buf s hp hf hlen hb
      have hstep : hole_loop buf (m + 1) s = hole_loop buf m (hole_body buf s) := by
        simp only [hole_loop, hp, gt_iff_lt, if_true]
      obtain ⟨r1, r2, r3, r4, r5⟩ := ih (hole_body buf s) (by rw [e2]; omega) e4 e6
        (by rw [e1, e2]; omega)
      rw [hstep]
      refine ⟨by rw [r1, e3, e2]; omega, r2, by rw [r3, e5, e2]; omega, r4, ?_⟩
      rw [r5, e7, e1, e2, List.append_assoc]
      congr 1
      have hsp : s.present = k + (s.present - k) := by omega
      conv_rhs => rw [hsp, List.take_add, List.drop_drop]
    · have h0 : s.present = 0 := by omega
      simp [hole_loop, h0, hf, hlen]

/-- With every file operation succeeding and the cursor at or beyond the extent,
`write_with_holes` commits all `n` bytes, moves the cursor by `n` and appends the range to
the logical contents of the file. -/
theorem write_with_holes_logical (fb : rs_filebuf_t) (n : Nat) (f : FILE)
    (hbuf : n ≤ fb.buf.length) (hf : f.faults = []) (hcur : f.data.length ≤ f.pos) :
    (write_with_holes fb n f).ret = n
      ∧ (write_with_holes fb n f).f.faults = []
      ∧ (write_with_holes fb n f).f.pos = f.pos + n
      ∧ (write_with_holes fb n f).f.data.length ≤ (write_with_holes fb n f).f.pos
      ∧ logical (write_with_holes fb n f).f = logical f ++ fb.buf.take n := by
  have h := hole_loop_append fb.buf n
    { pc := 0, present := n, ret := 0, f := f, runs := [] } (le_refl _) hf hcur
    (by simpa using hbuf)
  simpa [write_with_holes] using h

/-- Reading back on a stream without faults gives the bytes on disk from `p`, at most `n`. -/
theorem read_back_eq (g : FILE) (p n : Nat) (hg : g.faults = []) (hn : 0 < n) :
    read_back g p n = (g.data.drop p).take n := by
  obtain ⟨data, pos, eof, err, faults, log⟩ := g
  simp only at hg
  subst hg
  have hn0 : n ≠ 0 := by omega
  have hp : ¬ ((p : Int) < 0) := by omega
  simp [read_back, fseeko, seek_target, fread, hn0, hp]

/-- C1, amended. Round trip of the hole writer when appending: for a file whose cursor `p`
is at or beyond the extent and a range `R` of `n > 0` bytes at the start of the scratch
buffer, with every file operation succeeding, `write_with_holes` returns `n`, leaves the
cursor at `p + n`, and reading the `n` bytes at `[p, p + n)` back yields the part of `R` that
is on disk, the rest of `R` being zero bytes (a trailing hole is not on disk yet): the bytes
read back, filled up with zero bytes to length `n`, are `R`. -/
theorem write_with_holes_round_trip (fb : rs_filebuf_t) (n : Nat) (f : FILE)
    (hn : 0 < n) (hbuf : n ≤ fb.buf.length) (hf : f.faults = [])
    (hcur : f.data.length ≤ f.pos) :
    (write_with_holes fb n f).ret = n
      ∧ (write_with_holes fb n f).f.pos = f.pos + n
      ∧ read_back (write_with_holes fb n f).f f.pos n
          ++ List.replicate (n - (read_back (write_with_holes fb n f).f f.pos n).length) 0
          = fb.buf.take n := by
  obtain ⟨h1, h2, h3, h4, h5⟩ := write_with_holes_logical fb n f hbuf hf hcur
  refine ⟨h1, h3, ?_⟩
  rw [read_back_eq _ _ _ h2 hn]
  generalize (write_with_holes fb n f).f = g at h3 h4 h5
  have hR : (fb.buf.take n).length = n := by simp; omega
  have hdrop : (logical g).drop f.pos = fb.buf.take n := by
    rw [h5]
    have := logical_length f hcur
    rw [List.drop_append_of_le_length (by omega), List.drop_of_length_le (by omega)]
    simp
  rw [← hdrop]
  simp only [logical]
  by_cases hc : f.pos ≤ g.data.length
  · rw [List.drop_append_of_le_length hc]
    have hl : (g.data.drop f.pos).length ≤ n := by simp; omega
    rw [List.take_of_length_le hl]
    congr 2
    simp; omega
  · have hd : g.data.drop f.pos = [] := List.drop_of_length_le (by omega)
    rw [hd, List.drop_append_eq_append_drop, hd]
    simp
    omega

/-- C1 as stated fails. At the scenario of the specification (the ten bytes
`0 0 0 A B 0 0 C D 0` written to an empty file, every operation succeeding) all ten bytes are
reported committed, but the trailing hole is only a seek: the file holds nine bytes and
reading ten bytes back at offset 0 yields nine.  And at cursor 1 of the file `1 2 3` the
range `0` is reported committed while the byte read back at offset 1 is still `2`. -/
theorem write_with_holes_read_back_differs :
    (write_with_holes holes_example 10 (fopen [])).ret = 10
      ∧ read_back (write_with_holes holes_example 10 (fopen [])).f 0 10
          = [0, 0, 0, 65, 66, 0, 0, 67, 68]
      ∧ read_back (write_with_holes holes_example 10 (fopen [])).f 0 10 ≠ holes_example.buf
      ∧ (write_with_holes { f := straddle_example, buf := [0], buf_len := 1 } 1
            straddle_example).ret = 1
      ∧ read_back (write_with_holes { f := straddle_example, buf := [0], buf_len := 1 } 1
            straddle_example).f 1 1 = [2] := by
  decide

/-- C1 amended, at the scenario of the specification: the nine bytes read back, filled up
with one zero byte, are the ten bytes written. -/
theorem write_with_holes_round_trip_witness :
    (write_with_holes holes_example 10 (fopen [])).ret = 10
      ∧ (write_with_holes holes_example 10 (fopen [])).f.pos = 10
      ∧ read_back (write_with_holes holes_example 10 (fopen [])).f 0 10
          ++ List.replicate
              (10 - (read_back (write_with_holes holes_example 10 (fopen [])).f 0 10).length) 0
          = [0, 0, 0, 65, 66, 0, 0, 67, 68, 0] :=
  write_with_holes_round_trip holes_example 10 (fopen []) (by decide) (by decide) rfl
    (by decide)

/-! ## Sequential fill -/

/-- A fill at the end of the file reports the end of the input. -/
theorem fill_at_end (fb : rs_filebuf_t) (b : rs_buffers_t) (hN : 0 < fb.buf_len)
    (hf : fb.f.faults = []) (hend : fb.f.pos = fb.f.data.length) (hb : drained fb.buf_len b) :
    ∃ fb1 b1, rs_infilebuf_fill fb b = some (rs_result.RS_DONE, fb1, b1)
      ∧ b1.eof_in = true ∧ b1.avail_in = 0 ∧ fb1.f.data = fb.f.data := by
  obtain ⟨⟨data, pos, eof, err, faults, log⟩, mem, N⟩ := fb
  obtain ⟨h1, h2, h3⟩ := hb
  simp only at hf hend hN h3
  subst hf hend
  have hN0 : N ≠ 0 := by omega
  rcases h3 with h3 | ⟨p, h3, hp0, hpN⟩
  · cases eof <;>
      simp [rs_infilebuf_fill, h1, h2, h3, feof, ferror, fread, poke, hN0, hN,
        toInt32_zero] <;>
      exact ⟨_, _, ⟨rfl, rfl⟩, rfl, rfl, rfl⟩
  · cases eof <;>
      simp [rs_infilebuf_fill, h1, h2, h3, hp0, hpN, feof, ferror, fread, poke, hN0, hN,
        toInt32_zero] <;>
      exact ⟨_, _, ⟨rfl, rfl⟩, rfl, rfl, rfl⟩

/-- A fill before the end of the file delivers the next `min N (size - pos)` bytes at the
start of the scratch buffer, when that count fits the `int len`. -/
theorem fill_chunk (fb : rs_filebuf_t) (b : rs_buffers_t) (hN : 0 < fb.buf_len)
    (hf : fb.f.faults = []) (hpos : fb.f.pos < fb.f.data.length) (heof : fb.f.eof = false)
    (hb : drained fb.buf_len b)
    (hint : min fb.buf_len (fb.f.data.length - fb.f.pos) < 2147483648) :
    ∃ fb1 b1, rs_infilebuf_fill fb b = some (rs_result.RS_DONE, fb1, b1)
      ∧ b1.eof_in = false ∧ b1.next_in = some 0
      ∧ b1.avail_in = min fb.buf_len (fb.f.data.length - fb.f.pos)
      ∧ offered fb1 b1 = (fb.f.data.drop fb.f.pos).take fb.buf_len
      ∧ fb1.buf_len = fb.buf_len ∧ fb1.f.data = fb.f.data ∧ fb1.f.faults = []
      ∧ fb1.f.pos = fb.f.pos + min fb.buf_len (fb.f.data.length - fb.f.pos)
      ∧ (fb1.f.eof = true → fb1.f.pos = fb1.f.data.length) := by
  obtain ⟨⟨data, pos, eof, err, faults, log⟩, mem, N⟩ := fb
  obtain ⟨h1, h2, h3⟩ := hb
  simp only at hf hpos heof hN h3 hint
  subst hf heof
  have hN0 : N ≠ 0 := by omega
  have hlen : ((data.drop pos).take N).length = min N (data.length - pos) := by simp
  have hk : 0 < min N (data.length - pos) := by omega
  have hk0 : ¬ (min N (data.length - pos) = 0) := by omega
  have hne : ¬ (((min N (data.length - pos) : Nat) : Int) ≤ 0) := by omega
  have hfill : rs_infilebuf_fill ⟨⟨data, pos, false, err, [], log⟩, mem, N⟩ b
      = some (rs_result.RS_DONE,
          ⟨⟨data, pos + min N (data.length - pos), decide (min N (data.length - pos) < N), err,
              [], log ++ [IoOp.read pos N (min N (data.length - pos))]⟩,
            poke mem ((data.drop pos).take N), N⟩,
          { b with eof_in := false, avail_in := min N (data.length - pos),
                   next_in := some 0 }) := by
    have hor : ¬ (N = 0 ∨ data.length - pos = 0) := by omega
    have e1 : toInt32 ((N : Int) ⊓ ((data.length - pos : Nat) : Int))
        = (N : Int) ⊓ ((data.length - pos : Nat) : Int) := by
      rw [← Nat.cast_min]; exact toInt32_natCast _ hint
    have e2 : toSize ((N : Int) ⊓ ((data.length - pos : Nat) : Int))
        = min N (data.length - pos) := by
      rw [← Nat.cast_min]; exact toSize_natCast _ hint
    rcases h3 with h3 | ⟨p, h3, hp0, hpN⟩
    · simp only [rs_infilebuf_fill, h1, h2, h3, feof, fread, hN0, hlen, hne]
      simp [hor, e1, e2]
    · simp only [rs_infilebuf_fill, h1, h2, h3, feof, fread, hN0, hlen, hne]
      simp [hp0, hpN, hor, e1, e2]
  refine ⟨_, _, hfill, rfl, rfl, rfl, ?_, rfl, rfl, rfl, rfl, ?_⟩
  · simp only [offered, poke, Int.toNat_zero, List.drop_zero]
    rw [List.take_append_of_le_length (by rw [hlen]), ← hlen, List.take_length]
  · simp only [decide_eq_true_eq]
    omega

/-- After a delivery at the buffer start the consumer leaves a cursor that passes the
assertions. -/
theorem drained_consume_all (N : Nat) (b : rs_buffers_t) (he : b.eof_in = false)
    (hn : b.next_in = some 0) (ha : b.avail_in ≤ N) : drained N (consume_all b) := by
  refine ⟨he, rfl, Or.inr ⟨(b.avail_in : Int), ?_, by omega, by omega⟩⟩
  simp [consume_all, hn]

/-- The driver on a stream without faults: from any position it delivers the rest of the
file in chunks and ends with the end of the input reported. -/
theorem fill_all_delivers : ∀ (fuel : Nat) (fb : rs_filebuf_t) (b : rs_buffers_t),
    0 < fb.buf_len → fb.f.faults = [] → fb.f.pos ≤ fb.f.data.length →
    (fb.f.eof = true → fb.f.pos = fb.f.data.length) → drained fb.buf_len b →
    (fb.buf_len < 2147483648 ∨ fb.f.data.length < 2147483648) →
    fb.f.data.length - fb.f.pos + 1 ≤ fuel →
    ∃ cs fb1 b1, fill_all fuel fb b = some (cs, fb1, b1)
      ∧ delivered cs = fb.f.data.drop fb.f.pos
      ∧ (∀ c ∈ cs, c.next_in = some 0 ∧ c.avail_in = c.bytes.length ∧ 0 < c.avail_in
            ∧ c.avail_in ≤ fb.buf_len)
      ∧ b1.eof_in = true ∧ b1.avail_in = 0 ∧ fb1.f.data = fb.f.data := by
  intro fuel
  induction fuel with
  | zero => intro fb b _ _ _ _ _ _ h; omega
  | succ m ih =>
    intro fb b hN hf hpos heof hb hint hfuel
    by_cases hend : fb.f.pos = fb.f.data.length
    · obtain ⟨fb1, b1, hfill, e1, e2, e3⟩ := fill_at_end fb b hN hf hend hb
      refine ⟨[], fb1, b1, ?_, ?_, by simp, e1, e2, e3⟩
      · simp [fill_all, hfill, e1]
      · rw [hend]; simp [delivered]
    · have hlt : fb.f.pos < fb.f.data.length := by omega
      have heof' : fb.f.eof = false := by
        cases h : fb.f.eof
        · rfl
        · exact absurd (heof h) hend
      have hmin : min fb.buf_len (fb.f.data.length - fb.f.pos) < 2147483648 := by
        rcases hint with h | h
        · exact lt_of_le_of_lt (Nat.min_le_left _ _) h
        · exact lt_of_le_of_lt (Nat.min_le_right _ _) (by omega)
      obtain ⟨fb1, b1, hfill, e1, e2, e3, e4, e5, e6, e7, e8, e9⟩ :=
        fill_chunk fb b hN hf hlt heof' hb hmin
      clear hmin
      obtain ⟨k, hk⟩ : ∃ k, k = min fb.buf_len (fb.f.data.length - fb.f.pos) := ⟨_, rfl⟩
      have hk1 : k ≤ fb.buf_len := by rw [hk]; exact Nat.min_le_left _ _
      have hk2 : k ≤ fb.f.data.length - fb.f.pos := by rw [hk]; exact Nat.min_le_right _ _
      have hk3 : 0 < k := by rw [hk]; exact Nat.lt_min.2 ⟨hN, by omega⟩
      have hk4 : fb.buf_len ≤ fb.f.data.length - fb.f.pos → k = fb.buf_len := by
        intro hc; rw [hk]; exact Nat.min_eq_left hc
      have hk5 : ¬ fb.buf_len ≤ fb.f.data.length - fb.f.pos → k = fb.f.data.length - fb.f.pos := by
        intro hc; rw [hk]; exact Nat.min_eq_right (Nat.le_of_lt (Nat.lt_of_not_le hc))
      rw [← hk] at e3 e8
      clear hk
      have hd := drained_consume_all fb.buf_len b1 e1 e2 (by rw [e3]; exact hk1)
      obtain ⟨cs, fb2, b2, hrec, r1, r2, r3, r4, r5⟩ := ih fb1 (consume_all b1)
        (by rw [e5]; exact hN) e7 (by rw [e8, e6]; omega) e9 (by rw [e5]; exact hd)
        (by rw [e5, e6]; exact hint) (by rw [e8, e6]; omega)
      refine ⟨{ next_in := b1.next_in, avail_in := b1.avail_in, bytes := offered fb1 b1 } :: cs,
        fb2, b2, ?_, ?_, ?_, r3, r4, by rw [r5, e6]⟩
      · simp [fill_all, hfill, e1, hrec]
      · simp only [delivered, r1, e4, e6, e8]
        by_cases hc : fb.buf_len ≤ fb.f.data.length - fb.f.pos
        · rw [hk4 hc, ← List.drop_drop, List.take_append_drop]
        · have hkE := hk5 hc
          have t1 : (fb.f.data.drop fb.f.pos).length ≤ fb.buf_len := by
            rw [List.length_drop]; omega
          have t2 : fb.f.data.length ≤ fb.f.pos + k := by omega
          rw [List.take_of_length_le t1, List.drop_of_length_le t2]
          simp
      · intro c hc
        rcases List.mem_cons.1 hc with rfl | hc
        · refine ⟨e2, ?_, ?_, ?_⟩
          · simp only [e3, e4, List.length_take, List.length_drop]
            by_cases hc : fb.buf_len ≤ fb.f.data.length - fb.f.pos
            · rw [hk4 hc]; exact (Nat.min_eq_left hc).symm
            · rw [hk5 hc]; exact (Nat.min_eq_right (by omega)).symm
          · simp only [e3]; exact hk3
          · simp only [e3]; exact hk1
        · have := r2 c hc
          rw [e5] at this
          exact this

/-- C4, amended. Sequential fill delivers the file: for every content `C` read from position 0
without I/O errors and every capacity `N > 0`, provided the capacity or the file is smaller
than `2^31` bytes (so that the count of every read fits the `int len`), calling
`rs_infilebuf_fill` repeatedly, the consumer taking everything between calls, comes to an
end within `|C| + 1` calls; every call returns
`RS_DONE`; every delivery has `next_in` at the buffer start and `avail_in` equal to the number
of bytes delivered, between 1 and `N`; the deliveries concatenated in order are `C`; and the
call after the last delivery sets `eof_in` (with nothing available). -/
theorem rs_infilebuf_fill_delivers_file (C mem : List Nat) (N : Nat) (b : rs_buffers_t)
    (hN : 0 < N) (hint : N < 2147483648 ∨ C.length < 2147483648)
    (hnull : b.next_in = none) (havail : b.avail_in = 0) (heof : b.eof_in = false) :
    ∃ cs fb1 b1, fill_all (C.length + 1) { f := fopen C, buf := mem, buf_len := N } b
          = some (cs, fb1, b1)
      ∧ delivered cs = C
      ∧ (∀ c ∈ cs, c.next_in = some 0 ∧ c.avail_in = c.bytes.length ∧ 0 < c.avail_in
            ∧ c.avail_in ≤ N)
      ∧ b1.eof_in = true ∧ b1.avail_in = 0 := by
  obtain ⟨cs, fb1, b1, h1, h2, h3, h4, h5, -⟩ :=
    fill_all_delivers (C.length + 1) { f := fopen C, buf := mem, buf_len := N } b hN rfl
      (by simp [fopen]) (by simp [fopen]) ⟨heof, havail, Or.inl hnull⟩ hint
      (by simp [fopen])
  exact ⟨cs, fb1, b1, h1, by simpa [fopen] using h2, h3, h4, h5⟩

/-- C4 at the scenario of the specification: capacity 16 and the sixteen bytes `A` to `P`.
The first fill delivers all sixteen bytes with `avail_in = 16`, and the next fill reports the
end of the input. -/
theorem rs_infilebuf_fill_delivers_file_witness :
    ∃ cs fb1 b1, fill_all 17 fill_example null_cursors = some (cs, fb1, b1)
      ∧ delivered cs = [65, 66, 67, 68, 69, 70, 71, 72, 73, 74, 75, 76, 77, 78, 79, 80]
      ∧ (∀ c ∈ cs, c.next_in = some 0 ∧ c.avail_in = c.bytes.length ∧ 0 < c.avail_in
            ∧ c.avail_in ≤ 16)
      ∧ b1.eof_in = true ∧ b1.avail_in = 0 :=
  rs_infilebuf_fill_delivers_file
    [65, 66, 67, 68, 69, 70, 71, 72, 73, 74, 75, 76, 77, 78, 79, 80] (List.replicate 16 0) 16
    null_cursors (by decide) (Or.inl (by decide)) rfl rfl rfl

/-- The fill scenario evaluated: two calls, the first delivering the sixteen bytes at the
buffer start, the second finding the end of the file with a read that obtains nothing. -/
theorem fill_example_trace :
    (fill_all 17 fill_example null_cursors).map (fun r => (r.1, r.2.1.f.log, r.2.2.eof_in))
      = some ([{ next_in := some 0, avail_in := 16,
                 bytes := [65, 66, 67, 68, 69, 70, 71, 72, 73, 74, 75, 76, 77, 78, 79, 80] }],
              [IoOp.read 0 16 16, IoOp.read 16 16 0], true) := by
  decide

/-! ## Fill and drain, case by case -/

/-- C11. No read-ahead: when the input cursor is valid and `avail_in > 0`, `rs_infilebuf_fill`
returns `RS_DONE` and leaves the stream (cursor, contents, trace: no read is issued), the
scratch buffer, `next_in` and `avail_in` as they were; only `eof_in` may become set, which
happens when the end-of-file indicator of the stream is set. -/
theorem rs_infilebuf_fill_no_read_ahead (fb : rs_filebuf_t) (b : rs_buffers_t) (p : Int)
    (hnext : b.next_in = some p) (hp0 : 0 ≤ p) (hpN : p ≤ (fb.buf_len : Int))
    (hle : b.avail_in ≤ fb.buf_len) (hav : 0 < b.avail_in) :
    rs_infilebuf_fill fb b
      = some (rs_result.RS_DONE, fb, { b with eof_in := b.eof_in || feof fb.f }) := by
  have hav0 : b.avail_in ≠ 0 := by omega
  cases h1 : b.eof_in <;> cases h2 : feof fb.f <;>
    simp [rs_infilebuf_fill, hnext, hp0, hpN, hle, hav0, h1, h2]

/-- C11 at a cursor with four bytes left at offset 12 of the sixteen-byte scenario. -/
theorem rs_infilebuf_fill_no_read_ahead_witness :
    rs_infilebuf_fill fill_example midway_cursors
      = some (rs_result.RS_DONE, fill_example, midway_cursors) :=
  rs_infilebuf_fill_no_read_ahead fill_example midway_cursors 12 rfl (by decide) (by decide)
    (by decide) (by decide)

/-- C12, amended. Fill fails exactly on a genuine read error: for a cursor that passes the
assertions, and provided a read of up to the capacity obtains fewer than `2^31` bytes (as it
always does when the capacity is below `2^31`, so that the count fits the `int len`),
`rs_infilebuf_fill` returns `RS_IO_ERROR` if and only if `eof_in` and the end-of-file
indicator are clear, `avail_in = 0`, and the read obtains no byte without the end-of-file
indicator becoming set; the cursors are then unchanged.  In every other case it returns
`RS_DONE`, and a read that obtains no byte and sets the end-of-file indicator sets `eof_in`. -/
theorem rs_infilebuf_fill_io_error_iff (fb : rs_filebuf_t) (b : rs_buffers_t)
    (hok : in_ok fb.buf_len b)
    (hint : (fread fb.buf_len fb.f).1.length < 2147483648) :
    ∃ res fb1 b1, rs_infilebuf_fill fb b = some (res, fb1, b1)
      ∧ (res = rs_result.RS_IO_ERROR ↔
          (b.eof_in = false ∧ feof fb.f = false ∧ b.avail_in = 0
            ∧ (fread fb.buf_len fb.f).1 = [] ∧ feof (fread fb.buf_len fb.f).2 = false))
      ∧ (res = rs_result.RS_IO_ERROR → b1 = b)
      ∧ (res ≠ rs_result.RS_IO_ERROR → res = rs_result.RS_DONE)
      ∧ (b.eof_in = false → feof fb.f = false → b.avail_in = 0 →
          (fread fb.buf_len fb.f).1 = [] → feof (fread fb.buf_len fb.f).2 = true →
          b1.eof_in = true) := by
  have hasserts : (match b.next_in with
      | some p => decide (b.avail_in ≤ fb.buf_len) && decide (p ≥ 0)
                    && decide (p ≤ (fb.buf_len : Int))
      | none => decide (b.avail_in = 0)) = true := by
    rcases hok with ⟨h1, h2⟩ | ⟨p, h1, h2, h3, h4⟩
    · simp [h1, h2]
    · simp [h1, h2, h3, h4]
  obtain ⟨next_in, avail_in, eof_in, next_out, avail_out⟩ := b
  simp only at hasserts
  unfold rs_infilebuf_fill
  simp only [hasserts, not_true_eq_false, if_false]
  cases eof_in <;> cases h2 : feof fb.f
  · by_cases h3 : avail_in = 0
    · subst h3
      by_cases h4 : (fread fb.buf_len fb.f).1 = []
      · cases h5 : feof (fread fb.buf_len fb.f).2 <;> simp [h2, h4, h5, toInt32_zero] <;>
          exact ⟨_, _, _, ⟨rfl, rfl, rfl⟩, by simp⟩
      · have h6 : ¬ (((fread fb.buf_len fb.f).1.length : Int) ≤ 0) := by
          have : 0 < (fread fb.buf_len fb.f).1.length := List.length_pos.2 h4
          omega
        simp [h2, h4, h6, toInt32_natCast _ hint]
        exact ⟨_, _, _, ⟨rfl, rfl, rfl⟩, by simp⟩
    · simp [h2, h3]
      exact ⟨_, _, _, ⟨rfl, rfl, rfl⟩, by simp⟩
  · simp [h2]
    exact ⟨_, _, _, ⟨rfl, rfl, rfl⟩, by simp⟩
  · simp [h2]
    exact ⟨_, _, _, ⟨rfl, rfl, rfl⟩, by simp⟩
  · simp [h2]
    exact ⟨_, _, _, ⟨rfl, rfl, rfl⟩, by simp⟩

/-- C12 at a read that fails with an I/O error before any byte: `RS_IO_ERROR`, cursors as
before. -/
theorem rs_infilebuf_fill_io_error_iff_witness :
    ∃ fb1, rs_infilebuf_fill fill_error_example null_cursors
      = some (rs_result.RS_IO_ERROR, fb1, null_cursors) := by
  obtain ⟨res, fb1, b1, h1, h2, h3, -, -⟩ :=
    rs_infilebuf_fill_io_error_iff fill_error_example null_cursors (Or.inl ⟨rfl, rfl⟩)
      (by decide)
  have hres : res = rs_result.RS_IO_ERROR := h2.2 (by decide)
  have hb := h3 hres
  subst hres hb
  exact ⟨fb1, h1⟩

/-- C13. Draining nothing is a no-op: when the output cursor is at the buffer start (and
passes the assertion on `avail_out`), `rs_outfilebuf_drain` returns `RS_DONE` and leaves the
stream, the scratch buffer and the cursors exactly as they were, however many times it is
called in a row (`drain_repeat n` makes `n + 1` calls). -/
theorem rs_outfilebuf_drain_nothing (fb : rs_filebuf_t) (b : rs_buffers_t)
    (hnext : b.next_out = some 0) (hav : b.avail_out ≤ fb.buf_len) (n : Nat) :
    rs_outfilebuf_drain fb b = some (rs_result.RS_DONE, fb, b)
      ∧ drain_repeat n fb b = some (rs_result.RS_DONE, fb, b) := by
  have h1 : rs_outfilebuf_drain fb b = some (rs_result.RS_DONE, fb, b) := by
    simp [rs_outfilebuf_drain, hnext, hav, toInt32_zero]
  refine ⟨h1, ?_⟩
  induction n with
  | zero => simpa [drain_repeat] using h1
  | succ m ih => simp only [drain_repeat, h1]; exact ih

/-- C13 at the scenario buffer with nothing produced: three calls change nothing. -/
theorem rs_outfilebuf_drain_nothing_witness :
    rs_outfilebuf_drain holes_example (idle_cursors 10)
        = some (rs_result.RS_DONE, holes_example, idle_cursors 10)
      ∧ drain_repeat 2 holes_example (idle_cursors 10)
        = some (rs_result.RS_DONE, holes_example, idle_cursors 10) :=
  rs_outfilebuf_drain_nothing holes_example (idle_cursors 10) rfl (by decide) 2

/-- C14, amended. Drain hands out the whole buffer: called with a null output cursor
(`avail_out = 0`) it touches neither the stream nor the buffer, sets `next_out` to the buffer
start and `avail_out` to the capacity and returns `RS_DONE`; and whenever it returns `RS_DONE`
for a cursor with `0 < present < 2^31` bytes accumulated (so that the count fits the
`int present`), `next_out` is the buffer start and `avail_out` the capacity again. -/
theorem rs_outfilebuf_drain_hands_out_buffer (fb : rs_filebuf_t) (b : rs_buffers_t) :
    (b.next_out = none → b.avail_out = 0 →
        rs_outfilebuf_drain fb b
          = some (rs_result.RS_DONE, fb,
                  { b with next_out := some 0, avail_out := fb.buf_len }))
      ∧ (∀ (p : Int) (fb1 : rs_filebuf_t) (b1 : rs_buffers_t),
          b.next_out = some p → 0 < p → p < 2147483648 →
          rs_outfilebuf_drain fb b = some (rs_result.RS_DONE, fb1, b1) →
          b1.next_out = some 0 ∧ b1.avail_out = fb.buf_len) := by
  constructor
  · intro h1 h2
    simp [rs_outfilebuf_drain, h1, h2]
  · intro p fb1 b1 h1 h2 hint h3
    have hp32 : toInt32 p = p := toInt32_of_lt p (by omega) hint
    by_cases ha : b.avail_out ≤ fb.buf_len ∧ p ≥ 0 ∧ p ≤ (fb.buf_len : Int)
    · by_cases hr : p = toInt32 ((write_with_holes fb p.toNat fb.f).ret : Int)
      · simp only [rs_outfilebuf_drain, h1, ha, and_self, not_true_eq_false, if_false, hp32,
          h2, gt_iff_lt, if_true, ne_eq, ← hr, Option.some.injEq, Prod.mk.injEq,
          true_and] at h3
        obtain ⟨-, h4⟩ := h3
        subst h4
        exact ⟨rfl, rfl⟩
      · simp [rs_outfilebuf_drain, h1, ha, hp32, h2, hr] at h3
    · simp [rs_outfilebuf_drain, h1, ha] at h3

/-- C18. Safe seek writes nothing unless it must: when the extent is at least the cursor, or
the target is at least the cursor, `rs_file_seek` leaves the contents (hence the extent)
unchanged and none of the calls it makes is a write, whatever faults the stream meets; when
it returns `0` the cursor is `pos`; and on a stream without faults it does return `0` for
every target `pos ≥ 0`. -/
theorem rs_file_seek_no_write (f : FILE) (pos : Int)
    (h : (f.pos : Int) ≤ (f.data.length : Int) ∨ (f.pos : Int) ≤ pos) :
    (rs_file_seek f pos).2.data = f.data
      ∧ (∃ ops, (rs_file_seek f pos).2.log = f.log ++ ops ∧ ∀ op ∈ ops, op.isWrite = false)
      ∧ ((rs_file_seek f pos).1 = 0 → ((rs_file_seek f pos).2.pos : Int) = pos)
      ∧ (f.faults = [] → 0 ≤ pos → (rs_file_seek f pos).1 = 0) := by
  obtain ⟨data, p, eof, err, faults, log⟩ := f
  simp only at h
  have h0 : ¬ ((data.length : Int) < 0) := by omega
  have hc : ¬ (data.length < p ∧ pos < (p : Int)) := by omega
  by_cases hpos : pos < 0
  · rcases faults with _ | ⟨_ | a, _ | ⟨_ | b, rest⟩⟩ <;>
      simp [rs_file_seek, fseek, fseeko, seek_target, ftello, h0, hc, hpos, IoOp.isWrite]
  · have hpos' : (pos.toNat : Int) = pos := by omega
    rcases faults with _ | ⟨_ | a, _ | ⟨_ | b, rest⟩⟩ <;>
      simp [rs_file_seek, fseek, fseeko, seek_target, ftello, h0, hc, hpos, hpos',
        IoOp.isWrite]

/-- C18 at the file `1 2 3` with the cursor at 2, target 0. -/
theorem rs_file_seek_no_write_witness :
    (rs_file_seek within_example 0).2.data = [1, 2, 3]
      ∧ ((rs_file_seek within_example 0).2.pos : Int) = 0
      ∧ (rs_file_seek within_example 0).1 = 0 :=
  have h := rs_file_seek_no_write within_example 0 (Or.inl (by decide))
  ⟨h.1, h.2.2.1 (h.2.2.2 rfl (by decide)), h.2.2.2 rfl (by decide)⟩

/-- C14 at the scenario buffer: the first call hands out the ten bytes, and the drain of ten
produced bytes hands them out again. -/
theorem rs_outfilebuf_drain_hands_out_buffer_witness :
    rs_outfilebuf_drain holes_example null_cursors
        = some (rs_result.RS_DONE, holes_example, idle_cursors 10)
      ∧ (rs_outfilebuf_drain holes_example (produced 10 10)
            = some (rs_result.RS_DONE,
                { holes_example with f := (write_with_holes holes_example 10 (fopen [])).f },
                idle_cursors 10)
          ∧ (idle_cursors 10).next_out = some 0 ∧ (idle_cursors 10).avail_out = 10) :=
  have h := rs_outfilebuf_drain_hands_out_buffer holes_example
  have e : rs_outfilebuf_drain holes_example (produced 10 10)
      = some (rs_result.RS_DONE,
          { holes_example with f := (write_with_holes holes_example 10 (fopen [])).f },
          idle_cursors 10) := by decide
  ⟨(h null_cursors).1 rfl rfl, e,
    (h (produced 10 10)).2 10 _ _ rfl (by decide) (by decide) e⟩

/-! ## All-zero ranges and the seek back -/

/-- A zero scan over a stretch of zero bytes consumes all of it. -/
theorem scan_zero_all (buf : List Nat) (n pc seek : Nat)
    (hz : ∀ i, i < n → deref buf (pc + i) = 0) :
    scan_zero buf n pc seek = (pc + n, 0, seek + n) := by
  obtain ⟨k, hk, he, -, hstop⟩ := scan_zero_spec buf n pc seek
  have hkn : k = n := by
    by_contra hne
    have hlt : k < n := by omega
    exact hstop hlt (hz k hlt)
  subst hkn
  rw [he, Nat.sub_self]

/-- The loop does nothing once the range is exhausted. -/
theorem hole_loop_done (buf : List Nat) (fuel : Nat) (s : HoleState) (h : s.present = 0) :
    hole_loop buf fuel s = s := by
  cases fuel <;> simp [hole_loop, h]

/-- C16. Sparseness: a range of `n` zero bytes written by `write_with_holes` at position 0 of
an empty file, every operation succeeding, is reported committed in full (`n` is returned)
while nothing is put on disk: the contents stay empty, so the file is no larger than after
the naive write of all `n` bytes, none of the calls made is a write, and for `n > 0` the calls
are exactly the two seeks of the extent probe, a truncate at 0 and a seek to `n`. -/
theorem write_with_holes_sparse (fb : rs_filebuf_t) (n : Nat) (f : FILE)
    (hdata : f.data = []) (hpos : f.pos = 0) (hf : f.faults = [])
    (hz : ∀ i, i < n → deref fb.buf i = 0) :
    (write_with_holes fb n f).ret = n
      ∧ (write_with_holes fb n f).f.data = []
      ∧ (write_with_holes fb n f).f.data.length ≤ (fwrite fb.buf n f).2.data.length
      ∧ (∃ ops, (write_with_holes fb n f).f.log = f.log ++ ops
            ∧ ∀ op ∈ ops, op.isWrite = false)
      ∧ (0 < n → (write_with_holes fb n f).f.log
            = f.log ++ [IoOp.seek 0 true, IoOp.seek 0 true, IoOp.truncate 0 true,
                        IoOp.seek (n : Int) true]) := by
  obtain ⟨data, pos, eof, err, faults, log⟩ := f
  simp only at hdata hpos hf
  subst hdata hpos hf
  rcases Nat.eq_zero_or_pos n with h0 | hn
  · subst h0
    simp [write_with_holes, hole_loop]
  · obtain ⟨m, rfl⟩ : ∃ m, n = m + 1 := ⟨n - 1, by omega⟩
    have hscan : scan_zero fb.buf (m + 1) 0 0 = (0 + (m + 1), 0, 0 + (m + 1)) :=
      scan_zero_all fb.buf (m + 1) 0 0 (by intro i hi; simpa using hz i hi)
    have h6 : (0 : Int) < ((m : Int) + 1) := by omega
    have h7 : ¬ (((m : Int) + 1) < 0) := by omega
    have hbody : hole_body fb.buf
        { pc := 0, present := m + 1, ret := 0, f := ⟨[], 0, eof, err, [], log⟩, runs := [] }
        = { pc := m + 1, present := 0, ret := m + 1,
            f := ⟨[], m + 1, false, err, [], log ++ [IoOp.seek 0 true, IoOp.seek 0 true,
              IoOp.truncate 0 true, IoOp.seek ((m : Int) + 1) true]⟩,
            runs := [Run.mk true 0 (m + 1) (m + 1)] } := by
      simp [hole_body, hscan, scan_nonzero, try_making_a_hole, fseeko, seek_target, ftello,
        ftruncate, h6, h7]
    have hloop : write_with_holes fb (m + 1) ⟨[], 0, eof, err, [], log⟩
        = { pc := m + 1, present := 0, ret := m + 1,
            f := ⟨[], m + 1, false, err, [], log ++ [IoOp.seek 0 true, IoOp.seek 0 true,
              IoOp.truncate 0 true, IoOp.seek ((m : Int) + 1) true]⟩,
            runs := [Run.mk true 0 (m + 1) (m + 1)] } := by
      simp only [write_with_holes, hole_loop, Nat.succ_pos, gt_iff_lt, if_true, hbody]
      exact hole_loop_done _ _ _ rfl
    rw [hloop]
    refine ⟨rfl, rfl, by simp, ⟨_, rfl, ?_⟩, fun _ => by simp⟩
    intro op hop
    simp only [List.mem_cons, List.mem_singleton, List.not_mem_nil, or_false] at hop
    rcases hop with rfl | rfl | rfl | rfl <;> rfl

/-- C16 at five zero bytes on an empty file. -/
theorem write_with_holes_sparse_witness :
    (write_with_holes zeros_example 5 (fopen [])).ret = 5
      ∧ (write_with_holes zeros_example 5 (fopen [])).f.data = []
      ∧ (write_with_holes zeros_example 5 (fopen [])).f.log
          = [IoOp.seek 0 true, IoOp.seek 0 true, IoOp.truncate 0 true, IoOp.seek 5 true] :=
  have h := write_with_holes_sparse zeros_example 5 (fopen []) rfl rfl rfl (by decide)
  ⟨h.1, h.2.1, h.2.2.2.2 (by decide)⟩

/-- A safe seek backwards on a stream without faults whose cursor is at or beyond the extent:
it returns `0`, puts the hole up to the cursor on disk and lands on the target. -/
theorem rs_file_seek_back (g : FILE) (t : Nat) (hg : g.faults = [])
    (hlen : g.data.length ≤ g.pos) (ht : t < g.pos) :
    (rs_file_seek g (t : Int)).1 = 0 ∧ (rs_file_seek g (t : Int)).2.data = logical g
      ∧ (rs_file_seek g (t : Int)).2.pos = t ∧ (rs_file_seek g (t : Int)).2.faults = [] := by
  obtain ⟨data, pos, eof, err, faults, log⟩ := g
  simp only at hg hlen ht
  subst hg
  have h0 : ¬ ((data.length : Int) < 0) := by omega
  have ht0 : ¬ ((t : Int) < 0) := by omega
  by_cases hc : data.length < pos
  · have hc' : data.length < pos ∧ t < pos := ⟨hc, ht⟩
    have hp0 : ¬ ((pos : Int) - 1 < 0) := by omega
    have hp1 : ((pos : Int) - 1).toNat = pos - 1 := by omega
    have hp2 : pos ≠ 0 := by omega
    have hdata : store data (pos - 1) [0] = data ++ List.replicate (pos - data.length) 0 := by
      simp only [store]
      rw [List.take_of_length_le (by omega), List.drop_of_length_le (by simp; omega)]
      have : pos - data.length = (pos - 1 - data.length) + 1 := by omega
      rw [this, List.replicate_add]
      simp
    simp [rs_file_seek, fseek, fseeko, seek_target, ftello, fwrite, logical, h0, ht0, hc',
      hp0, hp1, hp2, hdata]
  · have hc' : ¬ (data.length < pos ∧ t < pos) := by omega
    have he : pos - data.length = 0 := by omega
    simp [rs_file_seek, fseek, fseeko, seek_target, ftello, logical, h0, ht0, hc', he]

/-- C19. Appending round trip through safe seek: for a file whose cursor `p` is at or beyond
its extent and a range `R` of `n > 0` bytes at the start of the scratch buffer, with every
file operation succeeding, `write_with_holes` followed by `rs_file_seek(f, p)` (which returns
`0`) leaves the contents equal to the old contents, zero bytes from the old extent to `p`,
and `R`: the extent is exactly `p + n`, the bytes at `[p, p + n)` are `R`, the bytes below
the old extent are unchanged, and the cursor is at `p`. -/
theorem write_with_holes_then_seek (fb : rs_filebuf_t) (n : Nat) (f : FILE)
    (hn : 0 < n) (hbuf : n ≤ fb.buf.length) (hf : f.faults = [])
    (hcur : f.data.length ≤ f.pos) :
    (rs_file_seek (write_with_holes fb n f).f (f.pos : Int)).1 = 0
      ∧ (rs_file_seek (write_with_holes fb n f).f (f.pos : Int)).2.data
          = f.data ++ List.replicate (f.pos - f.data.length) 0 ++ fb.buf.take n
      ∧ (rs_file_seek (write_with_holes fb n f).f (f.pos : Int)).2.data.length = f.pos + n
      ∧ ((rs_file_seek (write_with_holes fb n f).f (f.pos : Int)).2.data.drop f.pos).take n
          = fb.buf.take n
      ∧ (rs_file_seek (write_with_holes fb n f).f (f.pos : Int)).2.data.take f.data.length
          = f.data
      ∧ (rs_file_seek (write_with_holes fb n f).f (f.pos : Int)).2.pos = f.pos := by
  obtain ⟨-, h2, h3, h4, h5⟩ := write_with_holes_logical fb n f hbuf hf hcur
  obtain ⟨s1, s2, s3, -⟩ := rs_file_seek_back (write_with_holes fb n f).f f.pos h2 h4
    (by rw [h3]; omega)
  have hR : (fb.buf.take n).length = n := by simp; omega
  have hL : (f.data ++ List.replicate (f.pos - f.data.length) 0).length = f.pos :=
    logical_length f hcur
  have hdata : (rs_file_seek (write_with_holes fb n f).f (f.pos : Int)).2.data
      = f.data ++ List.replicate (f.pos - f.data.length) 0 ++ fb.buf.take n := by
    rw [s2, h5]; rfl
  refine ⟨s1, hdata, ?_, ?_, ?_, s3⟩
  · rw [hdata, List.length_append, hL, hR]
  · rw [hdata, List.drop_append_of_le_length (by omega), List.drop_of_length_le (by omega)]
    simp
  · rw [hdata, List.append_assoc, List.take_append_of_le_length (by omega)]
    simp

/-- C19 at the scenario of the specification: after the seek back to 0 the file holds the
ten bytes written. -/
theorem write_with_holes_then_seek_witness :
    (rs_file_seek (write_with_holes holes_example 10 (fopen [])).f 0).1 = 0
      ∧ (rs_file_seek (write_with_holes holes_example 10 (fopen [])).f 0).2.data
          = [0, 0, 0, 65, 66, 0, 0, 67, 68, 0]
      ∧ (rs_file_seek (write_with_holes holes_example 10 (fopen [])).f 0).2.pos = 0 :=
  have h := write_with_holes_then_seek holes_example 10 (fopen []) (by decide) (by decide)
    rfl (by decide)
  ⟨h.1, h.2.1, h.2.2.2.2.2⟩

/-! ## The run decomposition -/

/-- One pass of the loop body, with where each scan stops: a run of `k1` zero bytes that ends
at the end of the range or before a non-zero byte, then a run of `k2` non-zero bytes that
ends at the end of the range or before a zero byte; the runs issued are appended. -/
theorem hole_body_runs (buf : List Nat) (s : HoleState) (hp : 0 < s.present) :
    ∃ k1 k2 c1 c2, k1 + k2 ≤ s.present ∧ 0 < k1 + k2
      ∧ (∀ i, i < k1 → deref buf (s.pc + i) = 0)
      ∧ (∀ i, i < k2 → deref buf (s.pc + k1 + i) ≠ 0)
      ∧ (k1 < s.present → deref buf (s.pc + k1) ≠ 0)
      ∧ (k1 + k2 < s.present → deref buf (s.pc + k1 + k2) = 0)
      ∧ (hole_body buf s).pc = s.pc + k1 + k2
      ∧ (hole_body buf s).present = s.present - k1 - k2
      ∧ (hole_body buf s).runs
          = s.runs ++ ((if k1 > 0 then [Run.mk true s.pc k1 c1] else [])
              ++ (if k2 > 0 then [Run.mk false (s.pc + k1) k2 c2] else [])) := by
  obtain ⟨k1, hk1, e1, hz, hstop1⟩ := scan_zero_spec buf s.present s.pc 0
  obtain ⟨k2, hk2, e2, hnz, hstop2⟩ := scan_nonzero_spec buf (s.present - k1) (s.pc + k1) 0
  refine ⟨k1, k2, (try_making_a_hole s.f k1 (buf.drop s.pc)).1,
    (fwrite (buf.drop (s.pc + k1)) k2
      (if k1 > 0 then try_making_a_hole s.f k1 (buf.drop s.pc) else (0, s.f)).2).1,
    by omega, ?_, hz, hnz, hstop1, fun h => hstop2 (by omega), ?_, ?_, ?_⟩
  · by_contra hcon
    have h1 : k1 = 0 := by omega
    have h2 : k2 = 0 := by omega
    subst h1 h2
    exact hstop1 hp (hstop2 (by omega))
  · simp only [hole_body, e1, e2]
  · simp only [hole_body, e1, e2]
  · simp only [hole_body, e1, e2, zero_add]
    by_cases h1 : k1 > 0 <;> by_cases h2 : k2 > 0 <;> simp [h1, h2]

/-- The runs issued by the loop tile the remaining range, alternating in kind; `prev` is the
kind of the run issued just before, after which the scan stands on a zero byte. -/
theorem hole_loop_decomposes (buf : List Nat) : ∀ (fuel : Nat) (s : HoleState)
    (prev : Option Bool), s.present ≤ fuel →
    (prev = none ∨ (prev = some false ∧ (0 < s.present → deref buf s.pc = 0))) →
    ∃ new, (hole_loop buf fuel s).runs = s.runs ++ new ∧ decomposes buf s.pc prev new := by
  intro fuel
  induction fuel with
  | zero =>
    intro s prev hs _
    exact ⟨[], by simp [hole_loop], trivial⟩
  | succ m ih =>
    intro s prev hs hprev
    by_cases hp : 0 < s.present
    · obtain ⟨k1, k2, c1, c2, hk, hpos, hz, hnz, hstop1, hstop2, epc, epres, eruns⟩ :=
        hole_body_runs buf s hp
      have hstep : hole_loop buf (m + 1) s = hole_loop buf m (hole_body buf s) := by
        simp only [hole_loop, hp, gt_iff_lt, if_true]
      rw [hstep]
      by_cases h2 : k2 > 0
      · obtain ⟨new, hnew, hdec⟩ := ih (hole_body buf s) (some false) (by rw [epres]; omega)
          (Or.inr ⟨rfl, by rw [epres, epc]; intro h; exact hstop2 (by omega)⟩)
        rw [epc] at hdec
        have hnzrun : ∀ i, i < k2 → (deref buf (s.pc + k1 + i) = 0 ↔ false = true) := by
          intro i hi
          simp only [Bool.false_eq_true, iff_false]
          exact hnz i hi
        by_cases h1 : k1 > 0
        · refine ⟨Run.mk true s.pc k1 c1 :: Run.mk false (s.pc + k1) k2 c2 :: new, ?_, ?_⟩
          · rw [hnew, eruns]; simp [h1, h2]
          · refine ⟨rfl, h1, fun i hi => by simpa using hz i hi, ?_, rfl, h2, hnzrun,
              by simp, hdec⟩
            rcases hprev with h | ⟨h, -⟩ <;> simp [h]
        · have hk1 : k1 = 0 := by omega
          subst hk1
          refine ⟨Run.mk false (s.pc + 0) k2 c2 :: new, ?_, ?_⟩
          · rw [hnew, eruns]; simp [h2]
          · refine ⟨by simp, h2, by simpa using hnzrun, ?_, by simpa using hdec⟩
            rcases hprev with h | ⟨h, hzero⟩
            · simp [h]
            · exact absurd (hzero hp) (by simpa using hstop1 hp)
      · have hk2 : k2 = 0 := by omega
        subst hk2
        have h1 : k1 > 0 := by omega
        have hall : k1 = s.present := by
          by_contra hne
          have hlt : k1 < s.present := by omega
          exact hstop1 hlt (by simpa using hstop2 (by omega))
        have hdone : hole_loop buf m (hole_body buf s) = hole_body buf s :=
          hole_loop_done _ _ _ (by rw [epres]; omega)
        refine ⟨[Run.mk true s.pc k1 c1], ?_, ?_⟩
        · rw [hdone, eruns]; simp [h1]
        · refine ⟨rfl, h1, fun i hi => by simpa using hz i hi, ?_, trivial⟩
          rcases hprev with h | ⟨h, -⟩ <;> simp [h]
    · have h0 : s.present = 0 := by omega
      exact ⟨[], by simp [hole_loop_done _ _ _ h0], trivial⟩

/-- Runs that tile the buffer from `start` hold, concatenated, the bytes from `start` on. -/
theorem runs_bytes_eq (buf : List Nat) : ∀ (rs : List Run) (start : Nat) (prev : Option Bool),
    decomposes buf start prev rs → runs_bytes buf rs = (buf.drop start).take (requested rs) := by
  intro rs
  induction rs with
  | nil => intro start prev _; simp [runs_bytes, requested]
  | cons r rs ih =>
    intro start prev h
    obtain ⟨h1, -, -, -, h5⟩ := h
    have := ih (start + r.length) (some r.isZero) h5
    simp only [runs_bytes, requested, List.map_cons, List.sum_cons] at this ⊢
    rw [this, h1, List.take_add, List.drop_drop]

/-- C17. Run decomposition: for every range of `n` bytes at the start of the scratch buffer
and every stream, the hole requests and physical writes issued by `write_with_holes`, in
order, tile the range from index 0: each run starts where the one before ended and is not
empty, a hole request covers zero bytes only and a physical write non-zero bytes only, and
consecutive runs are of different kinds (so every run is maximal); the lengths sum to `n`,
the runs concatenated are the range, the value returned is the sum of the committed counts,
and it is `n` when every run is committed in full. -/
theorem write_with_holes_run_decomposition (fb : rs_filebuf_t) (n : Nat) (f : FILE) :
    decomposes fb.buf 0 none (write_with_holes fb n f).runs
      ∧ requested (write_with_holes fb n f).runs = n
      ∧ runs_bytes fb.buf (write_with_holes fb n f).runs = fb.buf.take n
      ∧ (write_with_holes fb n f).ret = committed (write_with_holes fb n f).runs
      ∧ ((∀ r ∈ (write_with_holes fb n f).runs, r.committed = r.length) →
          (write_with_holes fb n f).ret = n) := by
  obtain ⟨new, hruns, -, hret, hreq, hle⟩ := hole_loop_runs fb.buf n
    { pc := 0, present := n, ret := 0, f := f, runs := [] } (le_refl _)
  obtain ⟨new2, hruns2, hdec⟩ := hole_loop_decomposes fb.buf n
    { pc := 0, present := n, ret := 0, f := f, runs := [] } none (le_refl _) (Or.inl rfl)
  simp only [List.nil_append, zero_add] at hruns hret hreq hruns2 hdec
  have hsame : new2 = new := by rw [← hruns2, hruns]
  subst hsame
  have hr : (write_with_holes fb n f).runs = new2 := hruns
  have ht : (write_with_holes fb n f).ret = committed new2 := hret
  rw [hr, ht]
  refine ⟨hdec, hreq, ?_, rfl, ?_⟩
  · rw [runs_bytes_eq fb.buf new2 0 none hdec, hreq, List.drop_zero]
  · intro hall
    rw [(committed_eq_requested_iff new2 hle).2 hall, hreq]

/-- C17 at the scenario of the specification: hole 3, write `A B`, hole 2, write `C D`,
hole 1, ten bytes in all. -/
theorem write_with_holes_run_decomposition_witness :
    (write_with_holes holes_example 10 (fopen [])).runs
        = [Run.mk true 0 3 3, Run.mk false 3 2 2, Run.mk true 5 2 2, Run.mk false 7 2 2,
           Run.mk true 9 1 1]
      ∧ runs_bytes holes_example.buf (write_with_holes holes_example 10 (fopen [])).runs
        = [0, 0, 0, 65, 66, 0, 0, 67, 68, 0]
      ∧ (write_with_holes holes_example 10 (fopen [])).ret = 10 :=
  have h := write_with_holes_run_decomposition holes_example 10 (fopen [])
  ⟨by decide, h.2.2.1, h.2.2.2.2 (by decide)⟩

/-! ## The indices the scan reads -/

/-- C20 (the code at a failing input). The whole of a scratch buffer of capacity 4 holding
`0 0 7 7` is drained (`present = 4`): the zero scan reads indices 0, 1, 2, the non-zero scan
reads 2, 3 and then index 4, one past the end of the four-byte allocation, because `*pc` is
evaluated before `present > 0`. -/
theorem write_with_holes_reads_past_range :
    full_drain_example.buf.length = 4
      ∧ write_with_holes_reads full_drain_example 4 (fopen []) = [0, 1, 2, 2, 3, 4]
      ∧ ¬ (∀ i ∈ write_with_holes_reads full_drain_example 4 (fopen []), i < 4) := by
  decide

/-- The zero scan dereferences the index at which it stops. -/
theorem scan_zero_reads_stop (buf : List Nat) : ∀ present pc seek : Nat,
    (scan_zero buf present pc seek).1 ∈ scan_zero_reads buf present pc := by
  intro present
  induction present with
  | zero => intro pc seek; simp [scan_zero, scan_zero_reads]
  | succ n ih =>
    intro pc seek
    by_cases hz : deref buf pc = 0
    · simp only [scan_zero, scan_zero_reads, hz, if_true]
      exact List.mem_cons_of_mem _ (ih (pc + 1) (seek + 1))
    · simp [scan_zero, scan_zero_reads, hz]

/-- The non-zero scan dereferences the index at which it stops. -/
theorem scan_nonzero_reads_stop (buf : List Nat) : ∀ present pc count : Nat,
    (scan_nonzero buf present pc count).1 ∈ scan_nonzero_reads buf present pc := by
  intro present
  induction present with
  | zero => intro pc count; simp [scan_nonzero, scan_nonzero_reads]
  | succ n ih =>
    intro pc count
    by_cases hz : deref buf pc = 0
    · simp [scan_nonzero, scan_nonzero_reads, hz]
    · simp only [scan_nonzero, scan_nonzero_reads, hz, ne_eq, not_false_eq_true, if_true]
      exact List.mem_cons_of_mem _ (ih (pc + 1) (count + 1))

/-- The scans of the loop always dereference the index one past the range they are given. -/
theorem hole_loop_reads_end (buf : List Nat) : ∀ (fuel : Nat) (s : HoleState),
    0 < s.present → s.present ≤ fuel → s.pc + s.present ∈ hole_loop_reads buf fuel s := by
  intro fuel
  induction fuel with
  | zero => intro s h1 h2; omega
  | succ m ih =>
    intro s hp hs
    obtain ⟨k1, k2, c1, c2, hk, hpos, -, -, -, -, epc, epres, -⟩ := hole_body_runs buf s hp
    have hmem : (hole_body buf s).pc ∈ hole_body_reads buf s := by
      simp only [hole_body, hole_body_reads]
      exact List.mem_append_right _ (scan_nonzero_reads_stop buf _ _ 0)
    simp only [hole_loop_reads, hp, gt_iff_lt, if_true]
    by_cases hrest : 0 < (hole_body buf s).present
    · have := ih (hole_body buf s) hrest (by rw [epres]; omega)
      have he : (hole_body buf s).pc + (hole_body buf s).present = s.pc + s.present := by
        rw [epc, epres]; omega
      rw [he] at this
      exact List.mem_append_right _ this
    · have he : (hole_body buf s).pc = s.pc + s.present := by
        rw [epres] at hrest
        rw [epc]; omega
      rw [he] at hmem
      exact List.mem_append_left _ hmem

/-- Whatever the buffer holds, the scans of `write_with_holes` over a range of
`present > 0` bytes dereference index `present`, the first index outside the range. -/
theorem write_with_holes_reads_end (fb : rs_filebuf_t) (present : Nat) (f : FILE)
    (h : 0 < present) : present ∈ write_with_holes_reads fb present f := by
  have := hole_loop_reads_end fb.buf present
    { pc := 0, present := present, ret := 0, f := f, runs := [] } h (le_refl _)
  simpa [write_with_holes_reads] using this

/-! ## Cursor containment -/

/-- A read never obtains more bytes than it was asked for. -/
theorem fread_length_le (n : Nat) (f : FILE) : (fread n f).1.length ≤ n := by
  unfold fread
  by_cases hn : n = 0
  · simp [hn]
  · rcases hf : f.faults with _ | ⟨_ | k, rest⟩ <;>
      simp only [hn, if_false, List.length_take] <;> omega

/-- A fill on a contained input cursor returns; it keeps the capacity and the output cursor,
and either keeps the input cursor or sets it to the buffer start with at most the capacity
available. -/
theorem fill_cases (fb : rs_filebuf_t) (b : rs_buffers_t) (hok : in_ok fb.buf_len b) :
    ∃ r fb1 b1, rs_infilebuf_fill fb b = some (r, fb1, b1)
      ∧ fb1.buf_len = fb.buf_len ∧ b1.next_out = b.next_out ∧ b1.avail_out = b.avail_out
      ∧ ((b1.next_in = b.next_in ∧ b1.avail_in = b.avail_in)
          ∨ (b1.next_in = some 0 ∧ b1.avail_in ≤ fb.buf_len)) := by
  have hasserts : (match b.next_in with
      | some p => decide (b.avail_in ≤ fb.buf_len) && decide (p ≥ 0)
                    && decide (p ≤ (fb.buf_len : Int))
      | none => decide (b.avail_in = 0)) = true := by
    rcases hok with ⟨h1, h2⟩ | ⟨p, h1, h2, h3, h4⟩
    · simp [h1, h2]
    · simp [h1, h2, h3, h4]
  have hlen := fread_length_le fb.buf_len fb.f
  unfold rs_infilebuf_fill
  simp only [hasserts, not_true_eq_false, if_false]
  split
  · exact ⟨_, _, _, rfl, rfl, rfl, rfl, Or.inl ⟨rfl, rfl⟩⟩
  · split
    · exact ⟨_, _, _, rfl, rfl, rfl, rfl, Or.inl ⟨rfl, rfl⟩⟩
    · split
      · split
        · exact ⟨_, _, _, rfl, rfl, rfl, rfl, Or.inl ⟨rfl, rfl⟩⟩
        · split <;> exact ⟨_, _, _, rfl, rfl, rfl, rfl, Or.inl ⟨rfl, rfl⟩⟩
      · rename_i hneg
        refine ⟨_, _, _, rfl, rfl, rfl, rfl, Or.inr ⟨rfl, ?_⟩⟩
        dsimp only
        have hposl : 0 < toInt32 ((fread fb.buf_len fb.f).1.length : Int) := by omega
        have hle := toInt32_le _ (by omega) hposl
        have hlt := toInt32_lt ((fread fb.buf_len fb.f).1.length : Int)
        rw [toSize_of_nonneg _ (by omega) hlt]
        omega

/-- A drain on a contained output cursor returns; it keeps the capacity and the input
cursor, and either keeps the output cursor or sets it to the buffer start with the whole
capacity available. -/
theorem drain_cases (fb : rs_filebuf_t) (b : rs_buffers_t) (hok : out_ok fb.buf_len b) :
    ∃ r fb1 b1, rs_outfilebuf_drain fb b = some (r, fb1, b1)
      ∧ fb1.buf_len = fb.buf_len ∧ b1.next_in = b.next_in ∧ b1.avail_in = b.avail_in
      ∧ ((b1.next_out = b.next_out ∧ b1.avail_out = b.avail_out)
          ∨ (b1.next_out = some 0 ∧ b1.avail_out = fb.buf_len)) := by
  rcases hok with ⟨h1, h2⟩ | ⟨p, h1, h2, h3, h4⟩
  · refine ⟨rs_result.RS_DONE, fb, { b with next_out := some 0, avail_out := fb.buf_len },
      ?_, rfl, rfl, rfl, Or.inr ⟨rfl, rfl⟩⟩
    simp [rs_outfilebuf_drain, h1, h2]
  · have ha : b.avail_out ≤ fb.buf_len ∧ p ≥ 0 ∧ p ≤ (fb.buf_len : Int) := ⟨h4, h2, h3⟩
    unfold rs_outfilebuf_drain
    simp only [h1, ha, and_self, not_true_eq_false, if_false]
    split
    · split
      · exact ⟨_, _, _, rfl, rfl, rfl, rfl, Or.inl ⟨h1.symm ▸ rfl, rfl⟩⟩
      · exact ⟨_, _, _, rfl, rfl, rfl, rfl, Or.inr ⟨rfl, rfl⟩⟩
    · exact ⟨_, _, _, rfl, rfl, rfl, rfl, Or.inl ⟨h1.symm ▸ rfl, rfl⟩⟩

/-- A cursor that reaches no further than the end of the buffer passes the assertions of
`rs_infilebuf_fill`. -/
theorem in_tight_ok (N : Nat) (b : rs_buffers_t) (h : in_tight N b) : in_ok N b := by
  rcases h with h | ⟨p, h1, h2, h3⟩
  · exact Or.inl h
  · exact Or.inr ⟨p, h1, h2, by omega, by omega⟩

/-- A cursor that reaches no further than the end of the buffer passes the assertions of
`rs_outfilebuf_drain`. -/
theorem out_tight_ok (N : Nat) (b : rs_buffers_t) (h : out_tight N b) : out_ok N b := by
  rcases h with h | ⟨p, h1, h2, h3⟩
  · exact Or.inl h
  · exact Or.inr ⟨p, h1, h2, by omega, by omega⟩

/-- Every reached state keeps the two capacities and has both cursors reaching no further
than the end of their buffers. -/
theorem reach_tight (Nin Nout : Nat) (fbi fbo : rs_filebuf_t) (b : rs_buffers_t)
    (h : Reach Nin Nout fbi fbo b) :
    fbi.buf_len = Nin ∧ fbo.buf_len = Nout ∧ in_tight Nin b ∧ out_tight Nout b := by
  induction h with
  | start fi fo mi mo => exact ⟨rfl, rfl, Or.inl ⟨rfl, rfl⟩, Or.inl ⟨rfl, rfl⟩⟩
  | @fill fbi fbo b r fbi1 b1 _ hcall ih =>
    obtain ⟨e1, e2, hin, hout⟩ := ih
    obtain ⟨r2, fb2, b2, hres, c1, c2, c3, c4⟩ :=
      fill_cases fbi b (by rw [e1]; exact in_tight_ok _ _ hin)
    rw [hcall] at hres
    simp only [Option.some.injEq, Prod.mk.injEq] at hres
    obtain ⟨-, rfl, rfl⟩ := hres
    refine ⟨by rw [c1, e1], e2, ?_, ?_⟩
    · rcases c4 with ⟨d1, d2⟩ | ⟨d1, d2⟩
      · simpa only [in_tight, d1, d2] using hin
      · exact Or.inr ⟨0, d1, le_refl _, by rw [e1] at d2; omega⟩
    · simpa only [out_tight, c2, c3] using hout
  | @drain fbi fbo b r fbo1 b1 _ hcall ih =>
    obtain ⟨e1, e2, hin, hout⟩ := ih
    obtain ⟨r2, fb2, b2, hres, c1, c2, c3, c4⟩ :=
      drain_cases fbo b (by rw [e2]; exact out_tight_ok _ _ hout)
    rw [hcall] at hres
    simp only [Option.some.injEq, Prod.mk.injEq] at hres
    obtain ⟨-, rfl, rfl⟩ := hres
    refine ⟨e1, by rw [c1, e2], ?_, ?_⟩
    · simpa only [in_tight, c2, c3] using hin
    · rcases c4 with ⟨d1, d2⟩ | ⟨d1, d2⟩
      · simpa only [out_tight, d1, d2] using hout
      · exact Or.inr ⟨0, d1, le_refl _, by rw [e2] at d2; omega⟩
  | @engine fbi fbo b kin kout mem _ hkin hkout ih =>
    obtain ⟨e1, e2, hin, hout⟩ := ih
    refine ⟨e1, e2, ?_, ?_⟩
    · rcases hin with ⟨h1, h2⟩ | ⟨p, h1, h2, h3⟩
      · exact Or.inl ⟨by simp [engine_step, h1], by simp [engine_step, h2]⟩
      · refine Or.inr ⟨p + (kin : Int), by simp [engine_step, h1], by omega, ?_⟩
        simp only [engine_step]
        omega
    · rcases hout with ⟨h1, h2⟩ | ⟨p, h1, h2, h3⟩
      · exact Or.inl ⟨by simp [engine_step, h1], by simp [engine_step, h2]⟩
      · refine Or.inr ⟨p + (kout : Int), by simp [engine_step, h1], by omega, ?_⟩
        simp only [engine_step]
        omega

/-- C15. Cursor containment is an invariant of fill and drain: a call of
`rs_infilebuf_fill` (of `rs_outfilebuf_drain`) on an input (output) cursor that is null with
nothing available, or lies within `[buf, buf + capacity]` with at most the capacity
available, returns, whatever the result code, with the capacity unchanged and the cursor
contained again; consequently on every state reached from null cursors by fill and drain
calls interleaved with engine steps that advance a cursor by at most its available length,
both functions pass their assertions and return. -/
theorem cursor_containment_invariant :
    (∀ (fb : rs_filebuf_t) (b : rs_buffers_t), in_ok fb.buf_len b →
        ∃ r fb1 b1, rs_infilebuf_fill fb b = some (r, fb1, b1)
          ∧ fb1.buf_len = fb.buf_len ∧ in_ok fb1.buf_len b1)
      ∧ (∀ (fb : rs_filebuf_t) (b : rs_buffers_t), out_ok fb.buf_len b →
        ∃ r fb1 b1, rs_outfilebuf_drain fb b = some (r, fb1, b1)
          ∧ fb1.buf_len = fb.buf_len ∧ out_ok fb1.buf_len b1)
      ∧ (∀ (Nin Nout : Nat) (fbi fbo : rs_filebuf_t) (b : rs_buffers_t),
        Reach Nin Nout fbi fbo b →
        (∃ r fb1 b1, rs_infilebuf_fill fbi b = some (r, fb1, b1))
          ∧ (∃ r fb1 b1, rs_outfilebuf_drain fbo b = some (r, fb1, b1))) := by
  refine ⟨?_, ?_, ?_⟩
  · intro fb b hok
    obtain ⟨r, fb1, b1, hres, c1, -, -, c4⟩ := fill_cases fb b hok
    refine ⟨r, fb1, b1, hres, c1, ?_⟩
    rw [c1]
    rcases c4 with ⟨d1, d2⟩ | ⟨d1, d2⟩
    · simpa only [in_ok, d1, d2] using hok
    · exact Or.inr ⟨0, d1, le_refl _, by omega, d2⟩
  · intro fb b hok
    obtain ⟨r, fb1, b1, hres, c1, -, -, c4⟩ := drain_cases fb b hok
    refine ⟨r, fb1, b1, hres, c1, ?_⟩
    rw [c1]
    rcases c4 with ⟨d1, d2⟩ | ⟨d1, d2⟩
    · simpa only [out_ok, d1, d2] using hok
    · exact Or.inr ⟨0, d1, le_refl _, by omega, by omega⟩
  · intro Nin Nout fbi fbo b h
    obtain ⟨e1, e2, hin, hout⟩ := reach_tight Nin Nout fbi fbo b h
    obtain ⟨r, fb1, b1, hres, -⟩ := fill_cases fbi b (by rw [e1]; exact in_tight_ok _ _ hin)
    obtain ⟨r2, fb2, b2, hres2, -⟩ :=
      drain_cases fbo b (by rw [e2]; exact out_tight_ok _ _ hout)
    exact ⟨⟨r, fb1, b1, hres⟩, ⟨r2, fb2, b2, hres2⟩⟩

/-- C15 at the fill scenario: after the first fill and an engine step that consumes all
sixteen bytes the input pointer stands at the very end of the buffer, and both functions
still pass their assertions. -/
theorem cursor_containment_invariant_witness :
    (∃ r fb1 b1, rs_infilebuf_fill filled_example (engine_step filled_cursors 16 0)
        = some (r, fb1, b1))
      ∧ (∃ r fb1 b1, rs_outfilebuf_drain holes_example (engine_step filled_cursors 16 0)
        = some (r, fb1, b1)) :=
  cursor_containment_invariant.2.2 16 10 filled_example holes_example
    (engine_step filled_cursors 16 0)
    (Reach.engine 16 0 holes_example.buf
      (Reach.fill rs_result.RS_DONE filled_example filled_cursors
        (Reach.start (fopen [65, 66, 67, 68, 69, 70, 71, 72, 73, 74, 75, 76, 77, 78, 79, 80])
          (fopen []) (List.replicate 16 0) holes_example.buf)
        (by decide))
      (by decide) (by decide))

/-! ## Counts that do not fit an `int`, and the unchecked seek -/

/-- C7 (the code at a failing input). The cursor is at 5, beyond the extent 3, and a run of 4
zero bytes is requested; the seek to the end succeeds, the seek back to the cursor (line
163, whose result the code does not look at) fails, and the advancing seek succeeds: 4 is
returned as committed, yet the cursor is at `3 + 4 = 7` and not at `cur + L = 9`. -/
theorem try_making_a_hole_restore_fault :
    try_making_a_hole restore_fault_example 4 [0, 0, 0, 0]
      = (4, { data := [1, 2, 3], pos := 7, eof := false, err := false, faults := [],
              log := [IoOp.seek 3 true, IoOp.seek 5 false, IoOp.seek 7 true] }) := by
  decide

/-- A drain whose byte count does not come out positive in the `int present` writes
nothing and returns `RS_DONE` with the cursors as they were. -/
theorem drain_wrapped (fb : rs_filebuf_t) (b : rs_buffers_t) (p : Int)
    (hnext : b.next_out = some p) (hav : b.avail_out ≤ fb.buf_len) (hp0 : 0 ≤ p)
    (hpl : p ≤ (fb.buf_len : Int)) (hw : toInt32 p ≤ 0) :
    rs_outfilebuf_drain fb b = some (rs_result.RS_DONE, fb, b) := by
  have hw2 : ¬ (0 < toInt32 p) := by omega
  simp only [rs_outfilebuf_drain, hnext, hav, hp0, hpl, ge_iff_le, and_self, not_true_eq_false,
    if_false, gt_iff_lt, hw2]

/-- The value `2^31` does not fit an `int`: it is stored as `-2^31`. -/
theorem toInt32_wraps : toInt32 2147483648 = -2147483648 := by
  unfold toInt32
  omega

/-- A count of `2^31` is not positive once stored in an `int`. -/
theorem toInt32_wraps_count : toInt32 ((2147483648 : Nat) : Int) ≤ 0 := by
  unfold toInt32
  omega

/-- C2 as stated fails. With `2^31` bytes accumulated in an output buffer of capacity `2^31`
(`present = next_out - buf = 2^31 > 0`), `present` is negative as an `int`: the drain
writes nothing at all (the stream is untouched) and still returns `RS_DONE`, with
`next_out` and `avail_out` as they were. -/
theorem rs_outfilebuf_drain_huge_skips_write :
    huge_out_cursors.next_out = some 2147483648
      ∧ rs_outfilebuf_drain huge_out_example huge_out_cursors
          = some (rs_result.RS_DONE, huge_out_example, huge_out_cursors) :=
  ⟨rfl, drain_wrapped huge_out_example huge_out_cursors 2147483648 rfl (by decide)
    (by decide) (by decide) (by rw [toInt32_wraps]; decide)⟩

/-- C14 as stated fails. With `2^31` bytes accumulated in an output buffer of capacity
`2^31` the drain returns `RS_DONE` but leaves `next_out` at `buf + 2^31` and `avail_out` at
0, not at the buffer start with the capacity available. -/
theorem rs_outfilebuf_drain_huge_keeps_cursor :
    ∃ fb1 b1, rs_outfilebuf_drain huge_out_example huge_out_cursors
          = some (rs_result.RS_DONE, fb1, b1)
      ∧ b1.next_out = some 2147483648 ∧ b1.next_out ≠ some 0 ∧ b1.avail_out = 0 :=
  ⟨huge_out_example, huge_out_cursors,
    drain_wrapped huge_out_example huge_out_cursors 2147483648 rfl (by decide)
      (by decide) (by decide) (by rw [toInt32_wraps]; decide),
    rfl, by decide, rfl⟩

/-- A first fill that reads the whole capacity, when that count does not come out positive in
the `int len`: the bytes are read, the end-of-file indicator stays clear, and the call
returns `RS_IO_ERROR` with the cursors as they were. -/
theorem fill_wrapped (fb : rs_filebuf_t) (b : rs_buffers_t)
    (hnull : b.next_in = none) (havail : b.avail_in = 0) (heof : b.eof_in = false)
    (hf : fb.f.faults = []) (hfe : fb.f.eof = false) (hpos : fb.f.pos = 0)
    (hN : 0 < fb.buf_len) (hdata : fb.f.data.length = fb.buf_len)
    (hw : toInt32 (fb.buf_len : Int) ≤ 0) :
    (fread fb.buf_len fb.f).1.length = fb.buf_len
      ∧ ∃ fb1, rs_infilebuf_fill fb b = some (rs_result.RS_IO_ERROR, fb1, b) := by
  obtain ⟨⟨data, pos, eof, err, faults, log⟩, mem, N⟩ := fb
  obtain ⟨next_in, avail_in, eof_in, next_out, avail_out⟩ := b
  simp only at hnull havail heof hf hfe hpos hN hdata hw
  subst hnull havail heof hf hfe hpos
  have hN0 : N ≠ 0 := by omega
  have hlen : ((data.drop 0).take N).length = N := by simp [hdata]
  have hread : (fread N ⟨data, 0, false, err, [], log⟩).1.length = N := by
    simp only [fread, hN0, if_false, hlen]
  refine ⟨hread, ?_⟩
  have hnlt : ¬ (N < N) := by omega
  simp only [rs_infilebuf_fill, feof, ferror, fread, hN0, hlen, hw, hnlt, if_false, if_true,
    decide_True, decide_False, Bool.or_false, Bool.false_eq_true, not_true_eq_false,
    ne_eq, not_false_eq_true, ite_self]
  exact ⟨_, rfl⟩

/-- The driver stops without a result when a fill returns `RS_IO_ERROR`. -/
theorem fill_all_io_error (fuel : Nat) (fb fb1 : rs_filebuf_t) (b b1 : rs_buffers_t)
    (h : rs_infilebuf_fill fb b = some (rs_result.RS_IO_ERROR, fb1, b1)) :
    fill_all (fuel + 1) fb b = none := by
  simp only [fill_all, h]

/-- C4 as stated fails. With capacity `N = 2^31` and a file of `2^31` bytes read from
position 0 without I/O errors, the first fill reads all `2^31` bytes, but the count is
negative in the `int len`: the call returns `RS_IO_ERROR`, nothing is delivered and the
driver ends without a result. -/
theorem rs_infilebuf_fill_huge_not_delivered :
    (∃ fb1, rs_infilebuf_fill huge_in_example null_cursors
        = some (rs_result.RS_IO_ERROR, fb1, null_cursors))
      ∧ fill_all (2147483648 + 1) huge_in_example null_cursors = none :=
  have h := fill_wrapped huge_in_example null_cursors rfl rfl rfl rfl rfl rfl (by decide)
    (List.length_replicate 2147483648 7) toInt32_wraps_count
  ⟨h.2, h.2.elim (fun fb1 h1 => fill_all_io_error 2147483648 _ fb1 _ _ h1)⟩

/-- C12 as stated fails. With capacity `2^31` and a file of `2^31` bytes, `eof_in` and the
end-of-file indicator clear and `avail_in = 0`, the read obtains `2^31` bytes (not zero
bytes), yet the call returns `RS_IO_ERROR`. -/
theorem rs_infilebuf_fill_huge_io_error :
    (fread huge_in_example.buf_len huge_in_example.f).1.length = 2147483648
      ∧ (fread huge_in_example.buf_len huge_in_example.f).1 ≠ []
      ∧ ∃ fb1, rs_infilebuf_fill huge_in_example null_cursors
          = some (rs_result.RS_IO_ERROR, fb1, null_cursors) :=
  have h := fill_wrapped huge_in_example null_cursors rfl rfl rfl rfl rfl rfl (by decide)
    (List.length_replicate 2147483648 7) toInt32_wraps_count
  ⟨h.1, fun he => absurd (he ▸ h.1 : ([] : List Nat).length = 2147483648) (by decide), h.2⟩

/-- A fetch at offset 0 of a fresh stream that obtains all `n` bytes asked for, when `n` is
stored in the `int got` as neither `-1` nor `0`: `RS_DONE`, and `*len` is what the `int`
gives back as a `size_t`. -/
theorem copy_wrapped (f : FILE) (n : Nat) (buf : List Nat)
    (hf : f.faults = []) (hpos : f.pos = 0) (hlen : f.data.length = n) (hn : 0 < n)
    (h1 : toInt32 (n : Int) ≠ -1) (h0 : toInt32 (n : Int) ≠ 0) :
    (rs_file_copy_cb f 0 n buf).1 = rs_result.RS_DONE
      ∧ (rs_file_copy_cb f 0 n buf).2.2.1 = toSize (toInt32 (n : Int)) := by
  obtain ⟨data, pos, eof, err, faults, log⟩ := f
  simp only at hf hpos hlen
  subst hf hpos
  have hn0 : n ≠ 0 := by omega
  have hd0 : ¬ ((data.length : Int) < 0) := by omega
  have hl : (data.take n).length = n := by simp [hlen]
  have hmin : min n data.length = n := by omega
  simp [rs_file_copy_cb, rs_file_seek, fseek, fseeko, seek_target, ftello, fread,
    hd0, hn0, hmin, h1, h0]

/-- The count `2^31`, stored in an `int` and from there in a `size_t`, is `2^64 - 2^31`. -/
theorem toSize_toInt32_wraps :
    toSize (toInt32 ((2147483648 : Nat) : Int)) = 18446744071562067968 := by
  unfold toSize toInt32
  omega

/-- C8 as stated fails. On a fresh stream over a file of `2^31` bytes, a fetch of
`n = 2^31` bytes at offset 0 obtains them all and returns `RS_DONE`, but `*len` is set to
`2^64 - 2^31` and not to `min n (E - pos) = 2^31`, the count having passed through the
`int got`. -/
theorem rs_file_copy_cb_huge_len :
    huge_file_example.data.length = 2147483648
      ∧ (rs_file_copy_cb huge_file_example 0 2147483648 (List.replicate 2147483648 0)).1
          = rs_result.RS_DONE
      ∧ (rs_file_copy_cb huge_file_example 0 2147483648 (List.replicate 2147483648 0)).2.2.1
          = 18446744071562067968 :=
  have h := copy_wrapped huge_file_example 2147483648 (List.replicate 2147483648 0) rfl rfl
    (List.length_replicate 2147483648 7) (by decide)
    (by unfold toInt32; omega) (by unfold toInt32; omega)
  ⟨List.length_replicate 2147483648 7, h.1, h.2.trans toSize_toInt32_wraps⟩

end Librsync
